import Mathlib

/-!
# taco: storage formats, tensor paths and iteration-schedule queries

A shallow embedding of `src/src/format.cpp`, `src/include/taco/format.h` and
`src/src/lower/iteration_schedule.cpp`, followed by theorems about it.

Conventions of the embedding:
* `std::vector` is `List`; an unchecked `operator[]` outside the bounds is
  reported as `Error.OutOfBounds` instead of being left undefined;
* a failed `taco_uassert` / `taco_iassert` is an `Except.error`;
* a C `int` is `CInt` (32-bit two's complement), `size_t` values that come from
  an `int` are reduced modulo `2^64`;
* recursive and looping queries over the forest take a fuel argument and
  return `none` when the fuel is used up before the code returns.
-/

namespace Taco

/-! ## Definitions -/

/-- Failures the code can raise.  `OutOfBounds` stands for an unchecked vector
access outside its bounds, `InternalError` for a failed internal assertion that
the spec gives no name. -/
inductive Error where
  | ConfigurationError
  | ShapeMismatchError
  | LookupError
  | InternalError
  | OutOfBounds
deriving DecidableEq, Repr

/-- Storage kind of one dimension: `enum DimensionType` of format.h. -/
inductive DimensionType where
  | Dense
  | Sparse
  | Fixed
deriving DecidableEq, Repr

/-- A C `int`: a 32-bit two's-complement value. -/
structure CInt where
  val : Int
  lo : -2147483648 ≤ val
  hi : val < 2147483648
deriving DecidableEq

/-- Reduction of an integer to the `int` range (conversion to `int`). -/
def CInt.wrap (x : Int) : CInt :=
  ⟨(x + 2147483648) % 4294967296 - 2147483648, by omega, by omega⟩

instance (n : Nat) : OfNat CInt n := ⟨CInt.wrap (Int.ofNat n)⟩

/-- Conversion `int → size_t` on a 64-bit target: the value modulo `2^64`. -/
def CInt.toSizeT (x : CInt) : Nat := (x.val % 18446744073709551616).toNat

/-- Conversion `size_t → int`, as in `dimensionOrder[i] = i`. -/
def CInt.ofSizeT (i : Nat) : CInt := CInt.wrap (Int.ofNat i)

/-- Embeds `class Level` of format.h: the tensor dimension described by the level and
its storage type. -/
structure Level where
  dimension : Nat
  type : DimensionType
deriving DecidableEq, Repr

def Level.getType (l : Level) : DimensionType := l.type

def Level.getDimension (l : Level) : Nat := l.dimension

/-- Embeds `class Format` of format.h: the three private vectors. -/
structure Format where
  levels : List Level
  dimensionTypes : List DimensionType
  dimensionOrder : List CInt
deriving DecidableEq

/-- Embeds `Format::Format()`. -/
def Format.empty : Format := ⟨[], [], []⟩

/-- Embeds `Format::Format(const DimensionType&)`. -/
def Format.ofType (dimensionType : DimensionType) : Format :=
  ⟨[Level.mk 0 dimensionType], [dimensionType], [0]⟩

/-- Embeds `Format::Format(const std::vector<DimensionType>&)`: level `i` is
`Level(i, dimensionTypes[i])` and `dimensionOrder[i] = i`. -/
def Format.ofTypes (dimensionTypes : List DimensionType) : Format :=
  ⟨List.zipWith (fun i t => Level.mk i t) (List.range dimensionTypes.length) dimensionTypes,
   dimensionTypes,
   (List.range dimensionTypes.length).map CInt.ofSizeT⟩

/-- Embeds `Format::Format(dimensionTypes, dimensionOrder)`: the user assertion on the
two sizes, then level `i` is `Level(dimensionOrder[i], dimensionTypes[i])`. -/
def Format.make (dimensionTypes : List DimensionType) (dimensionOrder : List CInt) :
    Except Error Format :=
  if dimensionTypes.length = dimensionOrder.length then
    .ok ⟨List.zipWith (fun o t => Level.mk o.toSizeT t) dimensionOrder dimensionTypes,
         dimensionTypes, dimensionOrder⟩
  else
    .error .ConfigurationError

def Format.getDimensionTypes (f : Format) : List DimensionType := f.dimensionTypes

def Format.getDimensionOrder (f : Format) : List CInt := f.dimensionOrder

def Format.getLevels (f : Format) : List Level := f.levels

/-- Embeds `Format::getOrder`: the internal assertion, then the number of types. -/
def Format.getOrder (f : Format) : Except Error Nat :=
  if f.dimensionTypes.length = f.getDimensionOrder.length then
    .ok f.dimensionTypes.length
  else
    .error .InternalError

/-- The loop of `operator==`: `k` iterations are left, starting at index `i`.
The order entries are only read when the types at `i` agree. -/
def Format.eqLoop (aDimTypes bDimTypes : List DimensionType) (aDimOrder bDimOrder : List CInt) :
    Nat → Nat → Except Error Bool
  | 0, _ => .ok true
  | k + 1, i =>
    match aDimTypes[i]?, bDimTypes[i]? with
    | some x, some y =>
      if x ≠ y then .ok false
      else
        match aDimOrder[i]?, bDimOrder[i]? with
        | some p, some q =>
          if p ≠ q then .ok false
          else Format.eqLoop aDimTypes bDimTypes aDimOrder bDimOrder k (i + 1)
        | _, _ => .error .OutOfBounds
    | _, _ => .error .OutOfBounds

/-- Embeds `operator==(const Format&, const Format&)`. -/
def Format.eq (a b : Format) : Except Error Bool :=
  if a.getDimensionTypes.length = b.getDimensionTypes.length then
    Format.eqLoop a.getDimensionTypes b.getDimensionTypes a.getDimensionOrder
      b.getDimensionOrder a.getDimensionTypes.length 0
  else
    .ok false

/-- Embeds `operator!=(const Format&, const Format&)`. -/
def Format.ne (a b : Format) : Except Error Bool :=
  match Format.eq a b with
  | .ok r => .ok (!r)
  | .error e => .error e

/-- The loop of `Format::isDense`, which visits the dimension types in index
order and returns false at the first one that is not Dense. -/
def Format.isDenseLoop : List DimensionType → Bool
  | [] => true
  | t :: rest => if t ≠ .Dense then false else Format.isDenseLoop rest

/-- Embeds `Format::isDense`. -/
def Format.isDense (f : Format) : Bool := Format.isDenseLoop f.dimensionTypes

/-- The predefined formats of format.cpp. -/
def CSR : Except Error Format := Format.make [.Dense, .Sparse] [0, 1]

def CSC : Except Error Format := Format.make [.Dense, .Sparse] [1, 0]

def DCSR : Except Error Format := Format.make [.Sparse, .Sparse] [0, 1]

def DCSC : Except Error Format := Format.make [.Sparse, .Sparse] [1, 0]

/-- A Format value produced by one of the four constructors. -/
def Format.Constructed (f : Format) : Prop :=
  f = Format.empty ∨ (∃ t, f = Format.ofType t) ∨ (∃ T, f = Format.ofTypes T) ∨
    ∃ T P, Format.make T P = .ok f

/-- The list of ints `P` is a permutation of `0 .. n-1`. -/
def IsPermutation (P : List CInt) (n : Nat) : Prop :=
  (P.map CInt.val).Perm ((List.range n).map Int.ofNat)

instance (P : List CInt) (n : Nat) : Decidable (IsPermutation P n) := by
  unfold IsPermutation
  infer_instance

/-- Modelled from the spec: the kind tag of an index variable (the class `Var`
is not among the sources): free (visible in the output) or reduction. -/
inductive VarKind where
  | Free
  | Reduction
deriving DecidableEq, Repr

/-- Modelled from the spec: the index variable `Var`, which the sources only
use.  It is compared by identity, here the identifier `ident`, and carries its
kind tag. -/
structure Var where
  ident : Nat
  kind : VarKind
deriving DecidableEq, Repr

/-- Modelled from the spec: the variable is tagged free. -/
def Var.isFree (v : Var) : Bool := decide (v.kind = .Free)

/-- Modelled from the spec: the variable is tagged reduction. -/
def Var.isReduction (v : Var) : Bool := decide (v.kind = .Reduction)

/-- Modelled from the spec: the tensor handle `TensorBase` (taco/tensor.h is not
among the sources): a name, the Format and the declared index variables of the
tensor.  The expression assigned to the tensor is passed next to the handle. -/
structure TensorBase where
  name : String
  format : Format
  indexVars : List Var
deriving DecidableEq

/-- Modelled from the spec: the Format of the tensor. -/
def TensorBase.getFormat (t : TensorBase) : Format := t.format

/-- Modelled from the spec: the declared index variables of the tensor. -/
def TensorBase.getIndexVars (t : TensorBase) : List Var := t.indexVars

/-- Modelled from the spec: the order of a tensor is the order its Format
declares. -/
def TensorBase.getOrder (t : TensorBase) : Except Error Nat := t.format.getOrder

/-- Modelled from the spec: `TensorPath` (tensor_path.h is not among the
sources): a tensor handle plus an ordered list of index variables; the
constructor `TensorPath(tensor, path)` stores the list it is given. -/
structure TensorPath where
  tensor : TensorBase
  path : List Var
deriving DecidableEq

/-- Modelled from the spec: the tensor of the path. -/
def TensorPath.getTensor (p : TensorPath) : TensorBase := p.tensor

/-- Modelled from the spec: the variables of the path, in order. -/
def TensorPath.getVariables (p : TensorPath) : List Var := p.path

/-- Modelled from the spec: the number of variables of the path. -/
def TensorPath.getSize (p : TensorPath) : Nat := p.path.length

/-- Modelled from the spec: the expression tree (the node classes are not among
the sources) as a closed sum over a read node and the other node shapes.  A
read node carries its identity `site`, since expression handles are compared by
identity. -/
inductive Expr where
  | read (site : Nat) (tensor : TensorBase) (indexVars : List Var)
  | unary (a : Expr)
  | binary (a b : Expr)
  | immediate
deriving DecidableEq

/-- Modelled from the spec: `IterationScheduleForest` (its sources are not
present): the roots and the children and parent maps over index variables. -/
structure IterationScheduleForest where
  roots : List Var
  children : List (Var × List Var)
  parents : List (Var × Var)
deriving DecidableEq

namespace IterationScheduleForest

/-- Modelled from the spec: the roots of the forest. -/
def getRoots (f : IterationScheduleForest) : List Var := f.roots

/-- Modelled from the spec: whether a parent is recorded for the variable. -/
def hasParent (f : IterationScheduleForest) (v : Var) : Bool := (f.parents.lookup v).isSome

/-- Modelled from the spec: the parent of a variable; asking for the parent of a
root is a LookupError. -/
def getParent (f : IterationScheduleForest) (v : Var) : Except Error Var :=
  match f.parents.lookup v with
  | some p => .ok p
  | none => .error .LookupError

/-- Modelled from the spec: the children recorded for the variable, none when
the variable has no entry. -/
def getChildren (f : IterationScheduleForest) (v : Var) : List Var :=
  match f.children.lookup v with
  | some cs => cs
  | none => []

/-- Modelled from the spec: a variable is placed in the forest when it is a
root or has a parent. -/
def isPlaced (f : IterationScheduleForest) (v : Var) : Bool :=
  f.roots.contains v || f.hasParent v

/-- Modelled from the spec: adds `v` at the end of the children of `u`. -/
def appendChild : List (Var × List Var) → Var → Var → List (Var × List Var)
  | [], u, v => [(u, [v])]
  | (k, cs) :: rest, u, v =>
    if k = u then (k, cs ++ [v]) :: rest else (k, cs) :: appendChild rest u v

/-- Modelled from the spec, rule 1: the first variable of a path becomes a root
if it has not already been placed anywhere in the forest. -/
def addRoot (f : IterationScheduleForest) (v : Var) : IterationScheduleForest :=
  if f.isPlaced v then f else { f with roots := f.roots ++ [v] }

/-- Modelled from the spec, rules 2 and 3: for consecutive variables (u, v), if
v has no parent recorded yet, v's parent is u and v is added to u's children;
otherwise the edge is dropped. -/
def addEdge (f : IterationScheduleForest) (u v : Var) : IterationScheduleForest :=
  if f.hasParent v then f
  else { f with parents := f.parents ++ [(v, u)], children := appendChild f.children u v }

/-- Modelled from the spec: the consecutive pairs of one path, left to right. -/
def addEdges (f : IterationScheduleForest) : List Var → IterationScheduleForest
  | u :: v :: rest => addEdges (addEdge f u v) (v :: rest)
  | _ => f

/-- Modelled from the spec: one path is added, its first variable by rule 1,
then its consecutive pairs. -/
def addPath (f : IterationScheduleForest) (path : List Var) : IterationScheduleForest :=
  match path with
  | [] => f
  | u :: _ => addEdges (addRoot f u) path

/-- Modelled from the spec: `IterationScheduleForest(paths)`, the construction
rule applied path by path in the given order. -/
def ofPaths (paths : List TensorPath) : IterationScheduleForest :=
  paths.foldl (fun f p => addPath f p.getVariables) ⟨[], [], []⟩

/-- The variable `c` is a child of `p`. -/
def IsChild (f : IterationScheduleForest) (p c : Var) : Prop := c ∈ f.getChildren p

/-- The variable `p` is the parent of `c`. -/
def IsParent (f : IterationScheduleForest) (c p : Var) : Prop := f.getParent c = .ok p

/-- No variable is reachable from itself by child steps. -/
def ChildAcyclic (f : IterationScheduleForest) : Prop :=
  ∀ v, ¬ Relation.TransGen f.IsChild v v

/-- No variable is reachable from itself by parent steps. -/
def ParentAcyclic (f : IterationScheduleForest) : Prop :=
  ∀ v, ¬ Relation.TransGen f.IsParent v v

/-- The number of parent steps from a variable to its root. -/
inductive Depth (f : IterationScheduleForest) : Var → Nat → Prop where
  | root (v : Var) : f.hasParent v = false → Depth f v 0
  | step (v p : Var) (d : Nat) : f.getParent v = .ok p → Depth f p d → Depth f v (d + 1)

/-- The children and parent maps agree: `c` is in `getChildren(p)` exactly when
`getParent(c)` is `p`. -/
def Consistent (f : IterationScheduleForest) : Prop :=
  ∀ p c, c ∈ f.getChildren p ↔ f.getParent c = .ok p

/-- The consecutive pairs (u, v) of one path, left to right. -/
def consecutivePairs : List Var → List (Var × Var)
  | u :: v :: rest => (u, v) :: consecutivePairs (v :: rest)
  | _ => []

/-- The consecutive pairs of all paths in processing order: path by path, left
to right within each path. -/
def pathPairs (paths : List TensorPath) : List (Var × Var) :=
  paths.flatMap (fun p => consecutivePairs p.getVariables)

/-- The first component of the first pair, in processing order, whose second
component is `v`. -/
def firstParent (pairs : List (Var × Var)) (v : Var) : Option Var :=
  (pairs.find? (fun e => decide (e.2 = v))).map Prod.fst

end IterationScheduleForest

/-- The state of the visitor `CollectTensorPaths` inside `make`. -/
structure CollectTensorPaths where
  tensorPaths : List TensorPath
  mapReadNodesToPaths : List (Expr × TensorPath)

/-- The method `std::map::insert`: an existing key keeps its value. -/
def mapInsert (m : List (Expr × TensorPath)) (key : Expr) (value : TensorPath) :
    List (Expr × TensorPath) :=
  match m.lookup key with
  | some _ => m
  | none => m ++ [(key, value)]

/-- The loop `path[i] = op->indexVars[format.getLevels()[i].getDimension()]`
of the read visitor: `k` iterations are left, starting at index `i`; `path`
holds the entries 0 .. i-1 assigned so far. -/
def CollectTensorPaths.copyIndexVars (levels : List Level) (indexVars : List Var) :
    Nat → Nat → List Var → Except Error (List Var)
  | 0, _, path => .ok path
  | k + 1, i, path =>
    match levels[i]? with
    | none => .error .OutOfBounds
    | some level =>
      match indexVars[level.getDimension]? with
      | none => .error .OutOfBounds
      | some var => CollectTensorPaths.copyIndexVars levels indexVars k (i + 1) (path ++ [var])

/-- Embeds `CollectTensorPaths::visit(const ReadNode*)`. -/
def CollectTensorPaths.visitRead (c : CollectTensorPaths) (site : Nat) (tensor : TensorBase)
    (indexVars : List Var) : Except Error CollectTensorPaths :=
  match tensor.getOrder with
  | .error e => .error e
  | .ok order =>
    if order = indexVars.length then
      let format := tensor.getFormat
      match CollectTensorPaths.copyIndexVars format.getLevels indexVars indexVars.length 0 [] with
      | .error e => .error e
      | .ok path =>
        let tensorPath := TensorPath.mk tensor path
        .ok ⟨c.tensorPaths ++ [tensorPath],
             mapInsert c.mapReadNodesToPaths (Expr.read site tensor indexVars) tensorPath⟩
    else
      .error .ShapeMismatchError

/-- The traversal `expr.accept(&collect)`: operands are visited left to right. -/
def CollectTensorPaths.visit (c : CollectTensorPaths) : Expr → Except Error CollectTensorPaths
  | .read site tensor indexVars => c.visitRead site tensor indexVars
  | .unary a => c.visit a
  | .binary a b =>
    match c.visit a with
    | .error e => .error e
    | .ok c1 => c1.visit b
  | .immediate => .ok c

/-- The read nodes of an expression, in the order the traversal visits them. -/
def Expr.readSites : Expr → List Expr
  | .read site tensor indexVars => [.read site tensor indexVars]
  | .unary a => a.readSites
  | .binary a b => a.readSites ++ b.readSites
  | .immediate => []

/-- The path `p` is the TensorPath the read visitor derives at the read node `e`. -/
def CollectTensorPaths.Derived (e : Expr) (p : TensorPath) : Prop :=
  ∃ site tensor indexVars path, e = .read site tensor indexVars ∧
    CollectTensorPaths.copyIndexVars tensor.getFormat.getLevels indexVars indexVars.length 0 []
      = .ok path ∧
    p = ⟨tensor, path⟩

/-- Embeds `IterationSchedule::Content`. -/
structure IterationSchedule where
  tensor : TensorBase
  scheduleForest : IterationScheduleForest
  resultTensorPath : TensorPath
  tensorPaths : List TensorPath
  mapReadNodesToPaths : List (Expr × TensorPath)

namespace IterationSchedule

/-- Embeds `IterationSchedule::make`; `expr` is `tensor.getExpr()`. -/
def make (tensor : TensorBase) (expr : Expr) : Except Error IterationSchedule :=
  let resultTensorPath := TensorPath.mk tensor tensor.getIndexVars
  match CollectTensorPaths.visit ⟨[], []⟩ expr with
  | .error e => .error e
  | .ok collect =>
    let tensorPaths := collect.tensorPaths
    let forest := IterationScheduleForest.ofPaths ([resultTensorPath] ++ tensorPaths)
    .ok ⟨tensor, forest, resultTensorPath, tensorPaths, collect.mapReadNodesToPaths⟩

def getTensor (s : IterationSchedule) : TensorBase := s.tensor

def getRoots (s : IterationSchedule) : List Var := s.scheduleForest.getRoots

def getParent (s : IterationSchedule) (var : Var) : Except Error Var :=
  s.scheduleForest.getParent var

def getChildren (s : IterationSchedule) (var : Var) : List Var :=
  s.scheduleForest.getChildren var

/-- The while loop of `getAncestors`; one unit of fuel per test of the loop
condition. -/
def ancestorsLoop (s : IterationSchedule) :
    Nat → Var → List Var → Option (Except Error (List Var))
  | 0, _, _ => none
  | fuel + 1, parent, ancestors =>
    if s.scheduleForest.hasParent parent then
      match s.scheduleForest.getParent parent with
      | .error e => some (.error e)
      | .ok p => ancestorsLoop s fuel p (ancestors ++ [p])
    else
      some (.ok ancestors)

/-- Embeds `IterationSchedule::getAncestors`. -/
def getAncestors (s : IterationSchedule) (fuel : Nat) (var : Var) :
    Option (Except Error (List Var)) :=
  ancestorsLoop s fuel var [var]

/-- The for loop of `getDescendants` over the children, `rec` being the
recursive call. -/
def descendantsLoop (rec : Var → Option (List Var)) :
    List Var → List Var → Option (List Var)
  | [], descendants => some descendants
  | child :: rest, descendants =>
    match rec child with
    | none => none
    | some d => descendantsLoop rec rest (descendants ++ d)

/-- Embeds `IterationSchedule::getDescendants`; one unit of fuel per call. -/
def getDescendants (s : IterationSchedule) : Nat → Var → Option (List Var)
  | 0, _ => none
  | fuel + 1, var => descendantsLoop (getDescendants s fuel) (s.getChildren var) [var]

/-- The for loop of `hasFreeVariableDescendant` over the children, `rec` being
the recursive call. -/
def freeLoop (rec : Var → Option Bool) : List Var → Option Bool
  | [] => some false
  | child :: rest =>
    if child.isFree then some true
    else
      match rec child with
      | none => none
      | some true => some true
      | some false => freeLoop rec rest

/-- Embeds `IterationSchedule::hasFreeVariableDescendant`; one unit of fuel per call. -/
def hasFreeVariableDescendant (s : IterationSchedule) : Nat → Var → Option Bool
  | 0, _ => none
  | fuel + 1, var =>
    freeLoop (hasFreeVariableDescendant s fuel) (s.scheduleForest.getChildren var)

/-- Embeds `IterationSchedule::isLastFreeVariable`. -/
def isLastFreeVariable (s : IterationSchedule) (fuel : Nat) (var : Var) : Option Bool :=
  if var.isFree then
    match s.hasFreeVariableDescendant fuel var with
    | none => none
    | some b => some (!b)
  else
    some false

/-- The while loop of `hasReductionVariableAncestor`; one unit of fuel per test
of the loop condition. -/
def reductionLoop (s : IterationSchedule) : Nat → Var → Option (Except Error Bool)
  | 0, _ => none
  | fuel + 1, parent =>
    if s.scheduleForest.hasParent parent then
      match s.scheduleForest.getParent parent with
      | .error e => some (.error e)
      | .ok p => if p.isReduction then some (.ok true) else reductionLoop s fuel p
    else
      some (.ok false)

/-- Embeds `IterationSchedule::hasReductionVariableAncestor`. -/
def hasReductionVariableAncestor (s : IterationSchedule) (fuel : Nat) (var : Var) :
    Option (Except Error Bool) :=
  if var.isReduction then some (.ok true) else reductionLoop s fuel var

def getTensorPaths (s : IterationSchedule) : List TensorPath := s.tensorPaths

/-- Embeds `IterationSchedule::getTensorPath`: the assertion that the operand is a key
of the map, then the lookup. -/
def getTensorPath (s : IterationSchedule) (operand : Expr) : Except Error TensorPath :=
  match s.mapReadNodesToPaths.lookup operand with
  | some p => .ok p
  | none => .error .LookupError

def getResultTensorPath (s : IterationSchedule) : TensorPath := s.resultTensorPath

end IterationSchedule

/-- The fuelled computation `g` returns `a`: from some amount of fuel on, every
run yields `a`. -/
def Returns {α : Type} (g : Nat → Option α) (a : α) : Prop :=
  ∃ n, ∀ fuel, n ≤ fuel → g fuel = some a

/-! ### Concrete values used to evaluate the code -/

namespace Example

def i : Var := ⟨0, .Free⟩

def j : Var := ⟨1, .Free⟩

def k : Var := ⟨2, .Reduction⟩

/-- The value of the predefined format CSC. -/
def csc : Format :=
  ⟨[⟨1, .Dense⟩, ⟨0, .Sparse⟩], [.Dense, .Sparse], [1, 0]⟩

/-- The value of the predefined format CSR. -/
def csr : Format :=
  ⟨[⟨0, .Dense⟩, ⟨1, .Sparse⟩], [.Dense, .Sparse], [0, 1]⟩

def tensorA : TensorBase := ⟨"A", Format.ofTypes [.Dense, .Dense], [i, j]⟩

def tensorB : TensorBase := ⟨"B", csr, []⟩

def tensorC : TensorBase := ⟨"C", csr, []⟩

/-- The right-hand side of A(i,j) = B(i,k) * C(k,j). -/
def matmul : Expr := .binary (.read 0 tensorB [i, k]) (.read 1 tensorC [k, j])

/-- The schedule of A(i,j) = B(i,k) * C(k,j): root i with children j and k. -/
def schedule : IterationSchedule :=
  ⟨tensorA, ⟨[i], [(i, [j, k])], [(j, i), (k, i)]⟩, ⟨tensorA, [i, j]⟩,
   [⟨tensorB, [i, k]⟩, ⟨tensorC, [k, j]⟩],
   [(.read 0 tensorB [i, k], ⟨tensorB, [i, k]⟩), (.read 1 tensorC [k, j], ⟨tensorC, [k, j]⟩)]⟩

/-- A schedule whose forest is the chain k, i, j: k is the root, i its child
and j the child of i. -/
def chain : IterationSchedule :=
  ⟨tensorA, ⟨[k], [(k, [i]), (i, [j])], [(i, k), (j, i)]⟩, ⟨tensorA, [i, j]⟩, [], []⟩

/-- A rank that decreases from parent to child in the forest of `schedule`. -/
def rank (v : Var) : Nat := if v = i then 1 else 0

/-- A rank that decreases from parent to child in the forest of `chain`. -/
def chainRank (v : Var) : Nat := if v = k then 2 else if v = i then 1 else 0

end Example

/-! ## Theorems -/

theorem CInt.toSizeT_of_nonneg (x : CInt) (h : 0 ≤ x.val) : (x.toSizeT : Int) = x.val := by
  have := x.hi
  unfold CInt.toSizeT
  omega

theorem IsPermutation.perm_length {P : List CInt} {n : Nat} (h : IsPermutation P n) :
    P.length = n := by
  have := List.Perm.length_eq h
  simpa using this

theorem IsPermutation.mem_range {P : List CInt} {n : Nat} (h : IsPermutation P n)
    {x : CInt} (hx : x ∈ P) : 0 ≤ x.val ∧ x.val < n := by
  have h1 : x.val ∈ P.map CInt.val := List.mem_map_of_mem _ hx
  have h2 := h.subset h1
  simp only [List.mem_map, List.mem_range] at h2
  obtain ⟨k, hk, hkx⟩ := h2
  rw [← hkx]
  exact ⟨Int.ofNat_nonneg k, Int.ofNat_lt.mpr hk⟩

theorem Format.make_ok {T : List DimensionType} {P : List CInt} (h : T.length = P.length) :
    Format.make T P =
      .ok ⟨List.zipWith (fun o t => Level.mk o.toSizeT t) P T, T, P⟩ := by
  simp [Format.make, h]

theorem Format.make_levels_getElem? (T : List DimensionType) (P : List CInt) (i : Nat) :
    (List.zipWith (fun o t => Level.mk o.toSizeT t) P T)[i]? =
      match P[i]?, T[i]? with
      | some p, some t => some (Level.mk p.toSizeT t)
      | _, _ => none := by
  rw [List.getElem?_zipWith]
  cases P[i]? <;> cases T[i]? <;> rfl

/-- C3: for a list T of n dimension types and a permutation P of 0..n-1,
Format(T, P) is built, its order is n, its dimension types are T, its dimension
order is P, it has n levels and level i describes dimension P[i]. -/
theorem Format.make_permutation (T : List DimensionType) (P : List CInt) (n : Nat)
    (hT : T.length = n) (hP : IsPermutation P n) :
    ∃ f, Format.make T P = .ok f ∧ f.getOrder = .ok n ∧ f.getDimensionTypes = T ∧
      f.getDimensionOrder = P ∧ f.getLevels.length = n ∧
      ∀ i, i < n → ∃ lv p, f.getLevels[i]? = some lv ∧ P[i]? = some p ∧
        (lv.getDimension : Int) = p.val := by
  have hlen : P.length = n := hP.perm_length
  refine ⟨_, Format.make_ok (hT.trans hlen.symm), ?_, rfl, rfl, ?_, ?_⟩
  · simp [Format.getOrder, Format.getDimensionOrder, hT, hlen]
  · simp [Format.getLevels, hT, hlen]
  · intro i hi
    have hiP : i < P.length := hlen ▸ hi
    have hiT : i < T.length := hT ▸ hi
    refine ⟨Level.mk (P[i]).toSizeT T[i], P[i], ?_, List.getElem?_eq_getElem hiP, ?_⟩
    · simp only [Format.getLevels]
      rw [Format.make_levels_getElem?, List.getElem?_eq_getElem hiP,
        List.getElem?_eq_getElem hiT]
    · exact CInt.toSizeT_of_nonneg _ (hP.mem_range (List.getElem_mem hiP)).1

theorem Format.make_permutation_witness :
    ∃ f, Format.make [.Dense, .Sparse, .Fixed] [2, 0, 1] = .ok f ∧ f.getOrder = .ok 3 ∧
      f.getDimensionTypes = [.Dense, .Sparse, .Fixed] ∧
      f.getDimensionOrder = [2, 0, 1] ∧ f.getLevels.length = 3 ∧
      ∀ i, i < 3 → ∃ lv p, f.getLevels[i]? = some lv ∧ ([2, 0, 1] : List CInt)[i]? = some p ∧
        (lv.getDimension : Int) = p.val :=
  Format.make_permutation [.Dense, .Sparse, .Fixed] [2, 0, 1] 3 rfl (by decide)

/-- C4 (as stated, refuted): in CSC = Format({Dense, Sparse}, {1, 0}) the level
at position 0 describes dimension 1 and has type Dense, while the dimension
types list holds Sparse at index 1. -/
theorem Format.level_type_CSC :
    IsPermutation [1, 0] 2 ∧
    ∃ f lv, Format.make [.Dense, .Sparse] [1, 0] = .ok f ∧ f.getLevels[0]? = some lv ∧
      lv.getDimension = 1 ∧ lv.getType = .Dense ∧
      f.getDimensionTypes[lv.getDimension]? = some .Sparse :=
  ⟨by decide, _, _, rfl, rfl, rfl, rfl, rfl⟩

/-- C4 (amended): for Format(T, P) with P a permutation of 0..n-1, the level at
physical position i has the type stored at the same position i of the dimension
types, and describes dimension P[i]: it pairs P[i] with T[i]. -/
theorem Format.make_level_type (T : List DimensionType) (P : List CInt) (n : Nat)
    (hT : T.length = n) (hP : IsPermutation P n) :
    ∃ f, Format.make T P = .ok f ∧
      ∀ i, i < n → ∃ lv t p, f.getLevels[i]? = some lv ∧ f.getDimensionTypes[i]? = some t ∧
        P[i]? = some p ∧ lv.getType = t ∧ (lv.getDimension : Int) = p.val := by
  have hlen : P.length = n := hP.perm_length
  refine ⟨_, Format.make_ok (hT.trans hlen.symm), ?_⟩
  intro i hi
  have hiP : i < P.length := hlen ▸ hi
  have hiT : i < T.length := hT ▸ hi
  refine ⟨Level.mk (P[i]).toSizeT T[i], T[i], P[i], ?_, List.getElem?_eq_getElem hiT,
    List.getElem?_eq_getElem hiP, rfl, ?_⟩
  · simp only [Format.getLevels]
    rw [Format.make_levels_getElem?, List.getElem?_eq_getElem hiP,
      List.getElem?_eq_getElem hiT]
  · exact CInt.toSizeT_of_nonneg _ (hP.mem_range (List.getElem_mem hiP)).1

theorem Format.make_level_type_witness :
    ∃ f, Format.make [.Dense, .Sparse] [1, 0] = .ok f ∧
      ∀ i, i < 2 → ∃ lv t p, f.getLevels[i]? = some lv ∧ f.getDimensionTypes[i]? = some t ∧
        ([1, 0] : List CInt)[i]? = some p ∧ lv.getType = t ∧ (lv.getDimension : Int) = p.val :=
  Format.make_level_type [.Dense, .Sparse] [1, 0] 2 rfl (by decide)

/-- C5: Format(T, P) fails with ConfigurationError exactly when the two lists
differ in length, and produces a Format exactly when they have the same length,
whatever the entries of P are (a negative entry is accepted); three types with
two order entries fail. -/
theorem Format.make_error_iff (T : List DimensionType) (P : List CInt) :
    (Format.make T P = .error .ConfigurationError ↔ T.length ≠ P.length) ∧
    ((∃ f, Format.make T P = .ok f) ↔ T.length = P.length) ∧
    ((∃ e, Format.make T P = .error e) ↔ T.length ≠ P.length) ∧
    Format.make [.Dense, .Dense, .Dense] [0, 1] = .error .ConfigurationError ∧
    (∃ f, Format.make [.Dense] [CInt.wrap (-1)] = .ok f) := by
  refine ⟨?_, ?_, ?_, rfl, ⟨_, rfl⟩⟩
  · by_cases h : T.length = P.length <;> simp [Format.make, h]
  · by_cases h : T.length = P.length <;> simp [Format.make, h]
  · by_cases h : T.length = P.length <;> simp [Format.make, h]

theorem Format.Constructed.sizes_eq {f : Format} (h : f.Constructed) :
    f.dimensionTypes.length = f.dimensionOrder.length := by
  rcases h with h | ⟨t, h⟩ | ⟨T, h⟩ | ⟨T, P, h⟩
  · subst h; rfl
  · subst h; rfl
  · subst h; simp [Format.ofTypes]
  · by_cases hl : T.length = P.length
    · rw [Format.make_ok hl] at h
      cases h
      exact hl
    · simp [Format.make, hl] at h

theorem Format.eqLoop_spec (aT bT : List DimensionType) (aO bO : List CInt) :
    ∀ (k i : Nat), aT.length = i + k → bT.length = i + k → aO.length = i + k →
      bO.length = i + k →
      Format.eqLoop aT bT aO bO k i =
        .ok (decide (aT.drop i = bT.drop i ∧ aO.drop i = bO.drop i)) := by
  intro k
  induction k with
  | zero =>
    intro i h1 h2 h3 h4
    have e1 : aT.drop i = [] := List.drop_eq_nil_of_le (by omega)
    have e2 : bT.drop i = [] := List.drop_eq_nil_of_le (by omega)
    have e3 : aO.drop i = [] := List.drop_eq_nil_of_le (by omega)
    have e4 : bO.drop i = [] := List.drop_eq_nil_of_le (by omega)
    simp [Format.eqLoop, e1, e2, e3, e4]
  | succ k ih =>
    intro i h1 h2 h3 h4
    have l1 : i < aT.length := by omega
    have l2 : i < bT.length := by omega
    have l3 : i < aO.length := by omega
    have l4 : i < bO.length := by omega
    have ih1 := ih (i + 1) (by omega) (by omega) (by omega) (by omega)
    have d1 : aT.drop i = aT[i] :: aT.drop (i + 1) := List.drop_eq_getElem_cons l1
    have d2 : bT.drop i = bT[i] :: bT.drop (i + 1) := List.drop_eq_getElem_cons l2
    have d3 : aO.drop i = aO[i] :: aO.drop (i + 1) := List.drop_eq_getElem_cons l3
    have d4 : bO.drop i = bO[i] :: bO.drop (i + 1) := List.drop_eq_getElem_cons l4
    rw [d1, d2, d3, d4]
    unfold Format.eqLoop
    rw [List.getElem?_eq_getElem l1, List.getElem?_eq_getElem l2,
      List.getElem?_eq_getElem l3, List.getElem?_eq_getElem l4]
    simp only [ih1]
    generalize aT.drop (i + 1) = ra
    generalize bT.drop (i + 1) = rb
    generalize aO.drop (i + 1) = sa
    generalize bO.drop (i + 1) = sb
    by_cases hx : aT[i] = bT[i]
    · by_cases hp : aO[i] = bO[i]
      · simp [hx, hp]
      · simp [hx, hp]
    · simp [hx]

theorem Format.eq_of_constructed {a b : Format} (ha : a.Constructed) (hb : b.Constructed) :
    Format.eq a b =
      .ok (decide (a.getDimensionTypes = b.getDimensionTypes ∧
        a.getDimensionOrder = b.getDimensionOrder)) := by
  have la := ha.sizes_eq
  have lb := hb.sizes_eq
  unfold Format.eq
  simp only [Format.getDimensionTypes, Format.getDimensionOrder]
  by_cases hl : a.dimensionTypes.length = b.dimensionTypes.length
  · rw [if_pos hl, Format.eqLoop_spec _ _ _ _ _ 0 (by omega) (by omega) (by omega) (by omega)]
    simp
  · rw [if_neg hl]
    have : a.dimensionTypes ≠ b.dimensionTypes := fun h => hl (by rw [h])
    simp [this]

/-- C6: for Formats a and b produced by the constructors, a == b returns true
exactly when the dimension types and the dimension orders of a and b are equal
element for element; == is reflexive, a != b is the negation of a == b, and
CSR != CSC and DCSR != DCSC (same types, different orders). -/
theorem Format.eq_iff_structural (a b : Format) (ha : a.Constructed) (hb : b.Constructed) :
    ∃ r, Format.eq a b = .ok r ∧
      (r = true ↔ a.getDimensionTypes = b.getDimensionTypes ∧
        a.getDimensionOrder = b.getDimensionOrder) ∧
      Format.eq a a = .ok true ∧
      Format.ne a b = .ok (!r) ∧
      (CSR >>= fun x => CSC >>= fun y => Format.eq x y) = .ok false ∧
      (CSR >>= fun x => CSC >>= fun y => Format.ne x y) = .ok true ∧
      (DCSR >>= fun x => DCSC >>= fun y => Format.eq x y) = .ok false ∧
      (DCSR >>= fun x => DCSC >>= fun y => Format.ne x y) = .ok true := by
  refine ⟨_, Format.eq_of_constructed ha hb, by simp, ?_, ?_, rfl, rfl, rfl, rfl⟩
  · rw [Format.eq_of_constructed ha ha]; simp
  · simp [Format.ne, Format.eq_of_constructed ha hb]

theorem Format.eq_iff_structural_witness :
    ∃ r, Format.eq (Format.ofTypes [.Dense, .Sparse]) (Format.ofType .Dense) = .ok r ∧
      (r = true ↔ (Format.ofTypes [.Dense, .Sparse]).getDimensionTypes =
          (Format.ofType .Dense).getDimensionTypes ∧
        (Format.ofTypes [.Dense, .Sparse]).getDimensionOrder =
          (Format.ofType .Dense).getDimensionOrder) ∧
      Format.eq (Format.ofTypes [.Dense, .Sparse]) (Format.ofTypes [.Dense, .Sparse]) = .ok true ∧
      Format.ne (Format.ofTypes [.Dense, .Sparse]) (Format.ofType .Dense) = .ok (!r) ∧
      (CSR >>= fun x => CSC >>= fun y => Format.eq x y) = .ok false ∧
      (CSR >>= fun x => CSC >>= fun y => Format.ne x y) = .ok true ∧
      (DCSR >>= fun x => DCSC >>= fun y => Format.eq x y) = .ok false ∧
      (DCSR >>= fun x => DCSC >>= fun y => Format.ne x y) = .ok true :=
  Format.eq_iff_structural (Format.ofTypes [.Dense, .Sparse]) (Format.ofType .Dense)
    (Or.inr (Or.inr (Or.inl ⟨_, rfl⟩))) (Or.inr (Or.inl ⟨_, rfl⟩))

/-! ### Tensor paths -/

theorem Format.Constructed.level_dimension_lt {f : Format} (hc : f.Constructed) {n : Nat}
    (hP : IsPermutation f.dimensionOrder n) :
    f.levels.length = n ∧ ∀ i, i < n → ∃ lv, f.levels[i]? = some lv ∧ lv.getDimension < n := by
  have hlen : f.dimensionOrder.length = n := hP.perm_length
  rcases hc with h | ⟨t, h⟩ | ⟨T, h⟩ | ⟨T, P, h⟩
  · subst h
    have : n = 0 := by simpa [Format.empty] using hlen.symm
    subst this
    exact ⟨rfl, fun i hi => absurd hi (Nat.not_lt_zero i)⟩
  · subst h
    have : n = 1 := by simpa [Format.ofType] using hlen.symm
    subst this
    refine ⟨rfl, fun i hi => ?_⟩
    have : i = 0 := by omega
    subst this
    exact ⟨Level.mk 0 t, rfl, Nat.zero_lt_one⟩
  · subst h
    have hn : T.length = n := by simpa [Format.ofTypes] using hlen
    refine ⟨by simp [Format.ofTypes, hn], fun i hi => ?_⟩
    have hiT : i < T.length := hn ▸ hi
    refine ⟨Level.mk i T[i], ?_, hi⟩
    simp only [Format.ofTypes]
    rw [List.getElem?_zipWith]
    simp [hiT]
  · by_cases hl : T.length = P.length
    · rw [Format.make_ok hl] at h
      cases h
      simp only at hlen hP
      refine ⟨by simp [hl, hlen], fun i hi => ?_⟩
      have hiP : i < P.length := hlen ▸ hi
      have hiT : i < T.length := by omega
      refine ⟨Level.mk (P[i]).toSizeT T[i], ?_, ?_⟩
      · simp only
        rw [Format.make_levels_getElem?, List.getElem?_eq_getElem hiP,
          List.getElem?_eq_getElem hiT]
      · have hr := hP.mem_range (List.getElem_mem hiP)
        have := CInt.toSizeT_of_nonneg _ hr.1
        simp only [Level.getDimension]
        omega
    · simp [Format.make, hl] at h

theorem CollectTensorPaths.copyIndexVars_ok (levels : List Level) (indexVars : List Var) :
    ∀ (k i : Nat) (path : List Var),
      (∀ j, i ≤ j → j < i + k →
        ∃ lv, levels[j]? = some lv ∧ lv.getDimension < indexVars.length) →
      ∃ out, CollectTensorPaths.copyIndexVars levels indexVars k i path = .ok (path ++ out) ∧
        out.length = k ∧
        ∀ j, j < k → ∃ lv x, levels[i + j]? = some lv ∧
          indexVars[lv.getDimension]? = some x ∧ out[j]? = some x := by
  intro k
  induction k with
  | zero =>
    intro i path _
    exact ⟨[], by simp [CollectTensorPaths.copyIndexVars], rfl,
      fun j hj => absurd hj (Nat.not_lt_zero j)⟩
  | succ k ih =>
    intro i path h
    obtain ⟨lv, hlv, hdim⟩ := h i (Nat.le_refl i) (by omega)
    obtain ⟨out, hout, hlen, hget⟩ :=
      ih (i + 1) (path ++ [indexVars[lv.getDimension]]) (fun j h1 h2 => h j (by omega) (by omega))
    refine ⟨indexVars[lv.getDimension] :: out, ?_, by simp [hlen], ?_⟩
    · unfold CollectTensorPaths.copyIndexVars
      simp only [hlv, List.getElem?_eq_getElem hdim]
      rw [hout, List.append_assoc]
      rfl
    · intro j hj
      cases j with
      | zero =>
        exact ⟨lv, indexVars[lv.getDimension], hlv, List.getElem?_eq_getElem hdim, by simp⟩
      | succ j =>
        obtain ⟨lv2, x, h1, h2, h3⟩ := hget j (by omega)
        have e : i + (j + 1) = i + 1 + j := by omega
        exact ⟨lv2, x, e ▸ h1, h2, by simpa using h3⟩

/-- C1: for a read access with logical variable list L on a tensor whose Format
F has order |L| and a dimension order that is a permutation of 0..|L|-1, the
read visitor succeeds and appends a path P of length F.getOrder() with
P[i] = L[F.getLevels()[i].getDimension()] for every physical position i; this
is the path make records for the read site. -/
theorem CollectTensorPaths.visit_read_path (c : CollectTensorPaths) (site : Nat)
    (tensor : TensorBase) (L : List Var)
    (hF : tensor.getFormat.Constructed)
    (hL : tensor.getFormat.getOrder = .ok L.length)
    (hP : IsPermutation tensor.getFormat.getDimensionOrder L.length) :
    ∃ P, c.visit (.read site tensor L) =
        .ok ⟨c.tensorPaths ++ [⟨tensor, P⟩],
          mapInsert c.mapReadNodesToPaths (.read site tensor L) ⟨tensor, P⟩⟩ ∧
      tensor.getFormat.getOrder = .ok P.length ∧
      (∀ i, i < L.length → ∃ lv x, tensor.getFormat.getLevels[i]? = some lv ∧
        L[lv.getDimension]? = some x ∧ P[i]? = some x) ∧
      ∀ result : TensorBase, ∃ s, IterationSchedule.make result (.read site tensor L) = .ok s ∧
        s.getTensorPaths = [⟨tensor, P⟩] ∧
        s.getTensorPath (.read site tensor L) = .ok ⟨tensor, P⟩ := by
  obtain ⟨_, hlv⟩ := hF.level_dimension_lt hP
  obtain ⟨out, hout, hlen, hget⟩ :=
    CollectTensorPaths.copyIndexVars_ok tensor.getFormat.getLevels L L.length 0 []
      (fun j _ hj => hlv j (by omega))
  have hvisit : ∀ c : CollectTensorPaths, c.visit (.read site tensor L) =
      .ok ⟨c.tensorPaths ++ [⟨tensor, out⟩],
        mapInsert c.mapReadNodesToPaths (.read site tensor L) ⟨tensor, out⟩⟩ := by
    intro c
    have hL2 : tensor.getOrder = .ok L.length := hL
    simp only [CollectTensorPaths.visit, CollectTensorPaths.visitRead, hL2, if_true, hout,
      List.nil_append]
  refine ⟨out, hvisit c, by rw [hlen]; exact hL, ?_, ?_⟩
  · intro i hi
    obtain ⟨lv, x, h1, h2, h3⟩ := hget i hi
    exact ⟨lv, x, by simpa using h1, h2, h3⟩
  · intro result
    refine ⟨⟨result, IterationScheduleForest.ofPaths
      ([⟨result, result.getIndexVars⟩] ++ ([] ++ [⟨tensor, out⟩])),
      ⟨result, result.getIndexVars⟩, [] ++ [⟨tensor, out⟩],
      mapInsert [] (.read site tensor L) ⟨tensor, out⟩⟩, ?_, ?_, ?_⟩
    · simp only [IterationSchedule.make, hvisit]
    · simp [IterationSchedule.getTensorPaths]
    · simp [IterationSchedule.getTensorPath, mapInsert]

theorem CollectTensorPaths.visit_read_path_witness :
    ∃ P, CollectTensorPaths.visit ⟨[], []⟩
        (.read 0 ⟨"B", Example.csc, []⟩ [Example.i, Example.k]) =
        .ok ⟨[] ++ [⟨⟨"B", Example.csc, []⟩, P⟩],
          mapInsert [] (.read 0 ⟨"B", Example.csc, []⟩ [Example.i, Example.k])
            ⟨⟨"B", Example.csc, []⟩, P⟩⟩ ∧
      (TensorBase.mk "B" Example.csc []).getFormat.getOrder = .ok P.length ∧
      (∀ i, i < [Example.i, Example.k].length →
        ∃ lv x, (TensorBase.mk "B" Example.csc []).getFormat.getLevels[i]? = some lv ∧
        [Example.i, Example.k][lv.getDimension]? = some x ∧ P[i]? = some x) ∧
      ∀ result : TensorBase, ∃ s, IterationSchedule.make result
          (.read 0 ⟨"B", Example.csc, []⟩ [Example.i, Example.k]) = .ok s ∧
        s.getTensorPaths = [⟨⟨"B", Example.csc, []⟩, P⟩] ∧
        s.getTensorPath (.read 0 ⟨"B", Example.csc, []⟩ [Example.i, Example.k]) =
          .ok ⟨⟨"B", Example.csc, []⟩, P⟩ :=
  CollectTensorPaths.visit_read_path ⟨[], []⟩ 0 ⟨"B", Example.csc, []⟩ [Example.i, Example.k]
    (Or.inr (Or.inr (Or.inr ⟨[.Dense, .Sparse], [1, 0], rfl⟩))) rfl (by decide)

/-- C2 (the code at the failing input): for a result tensor A in the
column-major format CSC (levels describe dimensions 1, 0) with declared
variables [i, j], make stores the path [i, j], the declared list unchanged,
while the read of a tensor of the same format with the same variables is given
the path [j, i]; in general the result path of make is the declared list. -/
theorem IterationSchedule.make_result_path_unordered :
    CSC = .ok Example.csc ∧
    Example.csc.getLevels.map Level.getDimension = [1, 0] ∧
    (∃ s, IterationSchedule.make ⟨"A", Example.csc, [Example.i, Example.j]⟩
        (.read 0 ⟨"B", Example.csc, []⟩ [Example.i, Example.j]) = .ok s ∧
      s.getResultTensorPath.getVariables = [Example.i, Example.j] ∧
      s.getTensorPaths.map TensorPath.getVariables = [[Example.j, Example.i]]) ∧
    ∀ (tensor : TensorBase) (expr : Expr) (s : IterationSchedule),
      IterationSchedule.make tensor expr = .ok s →
        s.getResultTensorPath.getVariables = tensor.getIndexVars := by
  refine ⟨rfl, rfl, ⟨_, rfl, rfl, rfl⟩, ?_⟩
  intro tensor expr s h
  unfold IterationSchedule.make at h
  cases hv : CollectTensorPaths.visit ⟨[], []⟩ expr with
  | error e => simp [hv] at h
  | ok c =>
    simp only [hv] at h
    cases h
    rfl

/-! ### Termination: an acyclic relation with finite support is well founded -/

theorem wellFounded_of_acyclic {α : Type} (R : α → α → Prop) (S : List α)
    (hS : ∀ a b, R a b → b ∈ S) (hac : ∀ a, ¬ Relation.TransGen R a a) : WellFounded R := by
  haveI : IsStrictOrder α (Relation.TransGen R) :=
    { irrefl := hac, trans := fun _ _ _ h1 h2 => Relation.TransGen.trans h1 h2 }
  have hwf : Set.WellFoundedOn {x | x ∈ S} (Relation.TransGen R) :=
    (List.finite_toSet S).wellFoundedOn
  have hout : ∀ z, z ∉ S → Acc R z := fun z hz =>
    Acc.intro z (fun a haz => absurd (hS a z haz) hz)
  refine ⟨fun b => ?_⟩
  by_cases hb : b ∈ S
  · refine hwf.induction hb (P := Acc R) ?_
    intro y _ ih
    refine Acc.intro y (fun z hzy => ?_)
    by_cases hz : z ∈ S
    · exact ih z hz (Relation.TransGen.single hzy)
    · exact hout z hz
  · exact hout b hb

theorem lookup_mem_entries {β : Type} (m : List (Var × β)) (v : Var) (b : β)
    (h : m.lookup v = some b) : (v, b) ∈ m := by
  induction m with
  | nil => simp at h
  | cons e rest ih =>
    obtain ⟨k, x⟩ := e
    by_cases hk : v = k
    · subst hk
      have hb : (v == v) = true := by simp
      rw [List.lookup_cons, hb] at h
      cases h
      exact List.mem_cons_self _ _
    · have hb : (v == k) = false := by simpa using hk
      rw [List.lookup_cons, hb] at h
      exact List.mem_cons_of_mem _ (ih h)

theorem lookup_mem_keys {β : Type} (m : List (Var × β)) (v : Var) (b : β)
    (h : m.lookup v = some b) : v ∈ m.map Prod.fst :=
  List.mem_map.mpr ⟨(v, b), lookup_mem_entries m v b h, rfl⟩

namespace IterationScheduleForest

theorem getParent_eq_ok_iff (f : IterationScheduleForest) (v p : Var) :
    f.getParent v = .ok p ↔ f.parents.lookup v = some p := by
  unfold getParent
  cases f.parents.lookup v <;> simp

theorem hasParent_eq_false_iff (f : IterationScheduleForest) (v : Var) :
    f.hasParent v = false ↔ f.parents.lookup v = none := by
  unfold hasParent
  cases f.parents.lookup v <;> simp

theorem isParent_unique (f : IterationScheduleForest) {v p q : Var}
    (h1 : f.IsParent v p) (h2 : f.IsParent v q) : p = q := by
  unfold IsParent at h1 h2
  rw [h1] at h2
  cases h2
  rfl

theorem parent_wellFounded (f : IterationScheduleForest) (hac : f.ParentAcyclic) :
    WellFounded (fun p c => f.IsParent c p) := by
  refine wellFounded_of_acyclic _ (f.parents.map Prod.fst) ?_ ?_
  · intro p c h
    exact lookup_mem_keys _ _ _ ((f.getParent_eq_ok_iff c p).mp h)
  · intro a h
    exact hac a (Relation.transGen_swap.mp h)

theorem child_wellFounded (f : IterationScheduleForest) (hac : f.ChildAcyclic) :
    WellFounded (fun c p => f.IsChild p c) := by
  refine wellFounded_of_acyclic _ (f.children.map Prod.fst) ?_ ?_
  · intro c p h
    unfold IsChild getChildren at h
    cases hl : f.children.lookup p with
    | none => simp [hl] at h
    | some cs => exact lookup_mem_keys _ _ _ hl
  · intro a h
    exact hac a (Relation.transGen_swap.mp h)

theorem parentAcyclic_of_rank (f : IterationScheduleForest) (rank : Var → Nat)
    (h : ∀ e ∈ f.parents, rank e.1 < rank e.2) : f.ParentAcyclic := by
  have hstep : ∀ a b, f.IsParent a b → rank a < rank b := fun a b hab =>
    h (a, b) (lookup_mem_entries _ _ _ ((f.getParent_eq_ok_iff a b).mp hab))
  have htrans : ∀ a b, Relation.TransGen f.IsParent a b → rank a < rank b := by
    intro a b hab
    induction hab with
    | single h1 => exact hstep _ _ h1
    | tail _ h2 ih => exact Nat.lt_trans ih (hstep _ _ h2)
  exact fun v hv => Nat.lt_irrefl _ (htrans v v hv)

theorem childAcyclic_of_rank (f : IterationScheduleForest) (rank : Var → Nat)
    (h : ∀ e ∈ f.children, ∀ c ∈ e.2, rank c < rank e.1) : f.ChildAcyclic := by
  have hstep : ∀ a b, f.IsChild a b → rank b < rank a := by
    intro a b hab
    unfold IsChild getChildren at hab
    cases hl : f.children.lookup a with
    | none => simp [hl] at hab
    | some cs =>
      simp only [hl] at hab
      exact h (a, cs) (lookup_mem_entries _ _ _ hl) b hab
  have htrans : ∀ a b, Relation.TransGen f.IsChild a b → rank b < rank a := by
    intro a b hab
    induction hab with
    | single h1 => exact hstep _ _ h1
    | tail _ h2 ih => exact Nat.lt_trans (hstep _ _ h2) ih
  exact fun v hv => Nat.lt_irrefl _ (htrans v v hv)

theorem depth_unique (f : IterationScheduleForest) {v : Var} {d e : Nat}
    (h1 : f.Depth v d) (h2 : f.Depth v e) : d = e := by
  induction h1 generalizing e with
  | root v hv =>
    cases h2 with
    | root _ _ => rfl
    | step _ p d hp _ =>
      rw [hasParent_eq_false_iff] at hv
      rw [getParent_eq_ok_iff, hv] at hp
      cases hp
  | step v p d hp _ ih =>
    cases h2 with
    | root _ hv =>
      rw [hasParent_eq_false_iff] at hv
      rw [getParent_eq_ok_iff, hv] at hp
      cases hp
    | step _ q e hq hd =>
      have : p = q := f.isParent_unique hp hq
      subst this
      rw [ih hd]

end IterationScheduleForest

theorem Returns.unique {α : Type} {g : Nat → Option α} {a b : α}
    (h1 : Returns g a) (h2 : Returns g b) : a = b := by
  obtain ⟨n, hn⟩ := h1
  obtain ⟨m, hm⟩ := h2
  have e1 := hn (max n m) (Nat.le_max_left n m)
  have e2 := hm (max n m) (Nat.le_max_right n m)
  rw [e1] at e2
  exact Option.some.inj e2

theorem exists_succ_of_pos {fuel n : Nat} (h : n + 1 ≤ fuel) : ∃ m, fuel = m + 1 ∧ n ≤ m :=
  ⟨fuel - 1, by omega, by omega⟩

namespace IterationSchedule

/-! ### Ancestors -/

theorem ancestors_spec (s : IterationSchedule) (hac : s.scheduleForest.ParentAcyclic)
    (v : Var) :
    ∃ chain : List Var,
      (∀ acc, Returns (fun fuel => s.ancestorsLoop fuel v acc) (.ok (acc ++ chain))) ∧
      Returns (fun fuel => s.reductionLoop fuel v) (.ok (chain.any Var.isReduction)) ∧
      List.Chain (fun a b => s.getParent a = .ok b) v chain ∧
      (∃ r, (v :: chain).getLast? = some r ∧ s.scheduleForest.hasParent r = false) ∧
      s.scheduleForest.Depth v chain.length ∧
      (∀ a, a ∈ v :: chain ↔ Relation.ReflTransGen s.scheduleForest.IsParent v a) := by
  have hwf := s.scheduleForest.parent_wellFounded hac
  induction v using hwf.induction
  rename_i v ih
  cases hl : s.scheduleForest.parents.lookup v with
  | none =>
    have hp : s.scheduleForest.hasParent v = false :=
      (s.scheduleForest.hasParent_eq_false_iff v).mpr hl
    refine ⟨[], ?_, ?_, List.Chain.nil, ⟨v, rfl, hp⟩,
      IterationScheduleForest.Depth.root v hp, ?_⟩
    · intro acc
      refine ⟨1, fun fuel hf => ?_⟩
      obtain ⟨m, rfl, _⟩ := exists_succ_of_pos hf
      simp [ancestorsLoop, hp]
    · refine ⟨1, fun fuel hf => ?_⟩
      obtain ⟨m, rfl, _⟩ := exists_succ_of_pos hf
      simp [reductionLoop, hp]
    · intro a
      constructor
      · intro ha
        have : a = v := by simpa using ha
        subst this
        exact Relation.ReflTransGen.refl
      · intro ha
        rcases ha.cases_head with h | ⟨c, hc, _⟩
        · simp [h]
        · have := (s.scheduleForest.getParent_eq_ok_iff v c).mp hc
          rw [hl] at this
          cases this
  | some q =>
    have hq : s.scheduleForest.getParent v = .ok q :=
      (s.scheduleForest.getParent_eq_ok_iff v q).mpr hl
    have hp : s.scheduleForest.hasParent v = true := by
      simp [IterationScheduleForest.hasParent, hl]
    obtain ⟨chain, h1, h2, h3, ⟨r, hr1, hr2⟩, h5, h6⟩ := ih q hq
    refine ⟨q :: chain, ?_, ?_, List.Chain.cons hq h3, ⟨r, ?_, hr2⟩,
      IterationScheduleForest.Depth.step v q _ hq h5, ?_⟩
    · intro acc
      obtain ⟨n, hn⟩ := h1 (acc ++ [q])
      refine ⟨n + 1, fun fuel hf => ?_⟩
      obtain ⟨m, rfl, hm⟩ := exists_succ_of_pos hf
      have := hn m hm
      simp only [List.append_assoc, List.singleton_append] at this
      simp only [ancestorsLoop, hp, hq, if_true]
      exact this
    · obtain ⟨n, hn⟩ := h2
      refine ⟨n + 1, fun fuel hf => ?_⟩
      obtain ⟨m, rfl, hm⟩ := exists_succ_of_pos hf
      have := hn m hm
      simp only [reductionLoop, hp, hq, if_true, List.any_cons]
      cases hqr : q.isReduction
      · simpa using this
      · simp
    · rw [List.getLast?_cons_cons]
      exact hr1
    · intro a
      constructor
      · intro ha
        rcases List.mem_cons.mp ha with h | h
        · subst h
          exact Relation.ReflTransGen.refl
        · exact Relation.ReflTransGen.head hq ((h6 a).mp h)
      · intro ha
        rcases ha.cases_head with h | ⟨c, hc, hca⟩
        · simp [h]
        · have : c = q := s.scheduleForest.isParent_unique hc hq
          subst this
          exact List.mem_cons_of_mem _ ((h6 a).mpr hca)

/-- C9: when the parent relation is acyclic, getAncestors(v) returns a list
that starts with v, in which every later element is the parent of the element
before it, whose last element has no parent, and whose length is depth(v) + 1,
depth(v) being the number of parent steps from v to its root. -/
theorem getAncestors_chain (s : IterationSchedule) (hac : s.scheduleForest.ParentAcyclic)
    (v : Var) :
    ∃ (rest : List Var) (d : Nat),
      Returns (fun fuel => s.getAncestors fuel v) (.ok (v :: rest)) ∧
      List.Chain (fun a b => s.getParent a = .ok b) v rest ∧
      (∃ r, (v :: rest).getLast? = some r ∧ s.scheduleForest.hasParent r = false) ∧
      s.scheduleForest.Depth v d ∧ (∀ e, s.scheduleForest.Depth v e → e = d) ∧
      (v :: rest).length = d + 1 := by
  obtain ⟨chain, h1, _, h3, h4, h5, _⟩ := s.ancestors_spec hac v
  exact ⟨chain, chain.length, h1 [v], h3, h4, h5,
    fun e he => s.scheduleForest.depth_unique he h5, rfl⟩

theorem getAncestors_chain_witness :
    ∃ (rest : List Var) (d : Nat),
      Returns (fun fuel => Example.chain.getAncestors fuel Example.j) (.ok (Example.j :: rest)) ∧
      List.Chain (fun a b => Example.chain.getParent a = .ok b) Example.j rest ∧
      (∃ r, (Example.j :: rest).getLast? = some r ∧
        Example.chain.scheduleForest.hasParent r = false) ∧
      Example.chain.scheduleForest.Depth Example.j d ∧
      (∀ e, Example.chain.scheduleForest.Depth Example.j e → e = d) ∧
      (Example.j :: rest).length = d + 1 :=
  getAncestors_chain Example.chain
    (IterationScheduleForest.parentAcyclic_of_rank _ Example.chainRank (by decide)) Example.j

/-- C8: when the parent relation is acyclic, hasReductionVariableAncestor(v)
returns true exactly when some element of getAncestors(v) is a reduction
variable; so it is true when v itself, its parent, its grandparent or any
further ancestor is a reduction variable. -/
theorem hasReductionVariableAncestor_iff (s : IterationSchedule)
    (hac : s.scheduleForest.ParentAcyclic) (v : Var) :
    ∃ (l : List Var) (b : Bool),
      Returns (fun fuel => s.getAncestors fuel v) (.ok l) ∧
      Returns (fun fuel => s.hasReductionVariableAncestor fuel v) (.ok b) ∧
      (b = true ↔ ∃ a ∈ l, a.isReduction = true) ∧
      (v.isReduction = true → b = true) ∧
      (∀ p g, s.getParent v = .ok p → s.getParent p = .ok g → g.isReduction = true →
        b = true) ∧
      (∀ a, Relation.ReflTransGen s.scheduleForest.IsParent v a → a.isReduction = true →
        b = true) := by
  obtain ⟨chain, h1, ⟨n, hn⟩, _, _, _, h6⟩ := s.ancestors_spec hac v
  have hiff : ((v :: chain).any Var.isReduction = true ↔
      ∃ a ∈ v :: chain, a.isReduction = true) := List.any_eq_true
  have hall : ∀ a, Relation.ReflTransGen s.scheduleForest.IsParent v a →
      a.isReduction = true → (v :: chain).any Var.isReduction = true :=
    fun a ha hr => hiff.mpr ⟨a, (h6 a).mpr ha, hr⟩
  refine ⟨v :: chain, (v :: chain).any Var.isReduction, h1 [v], ⟨n, fun fuel hf => ?_⟩,
    hiff, fun hv => hall v Relation.ReflTransGen.refl hv, ?_, hall⟩
  · have := hn fuel hf
    simp only [hasReductionVariableAncestor, List.any_cons]
    cases hv : v.isReduction
    · simpa using this
    · simp
  · intro p g hp hg hr
    exact hall g (Relation.ReflTransGen.head hp (Relation.ReflTransGen.single hg)) hr

theorem hasReductionVariableAncestor_iff_witness :
    ∃ (l : List Var) (b : Bool),
      Returns (fun fuel => Example.chain.getAncestors fuel Example.j) (.ok l) ∧
      Returns (fun fuel => Example.chain.hasReductionVariableAncestor fuel Example.j) (.ok b) ∧
      (b = true ↔ ∃ a ∈ l, a.isReduction = true) ∧
      (Example.j.isReduction = true → b = true) ∧
      (∀ p g, Example.chain.getParent Example.j = .ok p → Example.chain.getParent p = .ok g →
        g.isReduction = true → b = true) ∧
      (∀ a, Relation.ReflTransGen Example.chain.scheduleForest.IsParent Example.j a →
        a.isReduction = true → b = true) :=
  hasReductionVariableAncestor_iff Example.chain
    (IterationScheduleForest.parentAcyclic_of_rank _ Example.chainRank (by decide)) Example.j

/-! ### Descendants -/

theorem forall₂_of_forall_mem {α β : Type} {R : α → β → Prop} :
    ∀ cs : List α, (∀ c ∈ cs, ∃ d, R c d) → ∃ ds, List.Forall₂ R cs ds := by
  intro cs
  induction cs with
  | nil => exact fun _ => ⟨[], List.Forall₂.nil⟩
  | cons c cs ih =>
    intro h
    obtain ⟨d, hd⟩ := h c (List.mem_cons_self c cs)
    obtain ⟨ds, hds⟩ := ih (fun x hx => h x (List.mem_cons_of_mem c hx))
    exact ⟨d :: ds, List.Forall₂.cons hd hds⟩

theorem forall₂_exists_iff {α β : Type} {R : α → β → Prop} {P : β → Prop} {Q : α → Prop}
    {cs : List α} {ds : List β} (h : List.Forall₂ R cs ds)
    (hRQ : ∀ c d, R c d → (P d ↔ Q c)) : (∃ d ∈ ds, P d) ↔ ∃ c ∈ cs, Q c := by
  induction h with
  | nil => simp
  | cons hcd _ ih =>
    simp only [List.mem_cons, exists_eq_or_imp]
    rw [hRQ _ _ hcd, ih]

theorem forall₂_mem_left {α β : Type} {R : α → β → Prop} {cs : List α} {ds : List β}
    (h : List.Forall₂ R cs ds) {c : α} (hc : c ∈ cs) : ∃ d ∈ ds, R c d := by
  induction h with
  | nil => simp at hc
  | cons hcd _ ih =>
    rcases List.mem_cons.mp hc with h1 | h1
    · subst h1
      exact ⟨_, List.mem_cons_self _ _, hcd⟩
    · obtain ⟨d, hd, hr⟩ := ih h1
      exact ⟨d, List.mem_cons_of_mem _ hd, hr⟩

theorem length_le_flatten {α : Type} {ds : List (List α)} {d : List α} (h : d ∈ ds) :
    d.length ≤ ds.flatten.length := by
  induction ds with
  | nil => simp at h
  | cons e ds ih =>
    rw [List.flatten_cons, List.length_append]
    rcases List.mem_cons.mp h with h1 | h1
    · subst h1
      omega
    · have := ih h1
      omega

theorem descendantsLoop_of_forall₂ (rec : Var → Option (List Var)) {cs : List Var}
    {ds : List (List Var)} (h : List.Forall₂ (fun c d => rec c = some d) cs ds) :
    ∀ acc, descendantsLoop rec cs acc = some (acc ++ ds.flatten) := by
  induction h with
  | nil => intro acc; simp [descendantsLoop]
  | cons hcd _ ih =>
    intro acc
    simp only [descendantsLoop, hcd, ih, List.flatten_cons, List.append_assoc]

theorem descendantsLoop_inv (rec : Var → Option (List Var)) :
    ∀ (cs acc l : List Var), descendantsLoop rec cs acc = some l →
      ∃ ds, List.Forall₂ (fun c d => rec c = some d) cs ds ∧ l = acc ++ ds.flatten := by
  intro cs
  induction cs with
  | nil =>
    intro acc l h
    simp only [descendantsLoop, Option.some.injEq] at h
    exact ⟨[], List.Forall₂.nil, by simp [h]⟩
  | cons c cs ih =>
    intro acc l h
    cases hc : rec c with
    | none => simp [descendantsLoop, hc] at h
    | some d =>
      simp only [descendantsLoop, hc] at h
      obtain ⟨ds, hds, hl⟩ := ih _ _ h
      exact ⟨d :: ds, List.Forall₂.cons hc hds, by simp [hl]⟩

theorem getDescendants_unfold (s : IterationSchedule) {n : Nat} {v : Var} {l : List Var}
    (h : s.getDescendants (n + 1) v = some l) :
    ∃ ds, List.Forall₂ (fun c d => s.getDescendants n c = some d) (s.getChildren v) ds ∧
      l = v :: ds.flatten := by
  simp only [getDescendants] at h
  obtain ⟨ds, hds, hl⟩ := descendantsLoop_inv _ _ _ _ h
  exact ⟨ds, hds, by simpa using hl⟩

theorem getDescendants_succ (s : IterationSchedule) :
    ∀ (n : Nat) (v : Var) (l : List Var),
      s.getDescendants n v = some l → s.getDescendants (n + 1) v = some l := by
  intro n
  induction n with
  | zero => intro v l h; simp [getDescendants] at h
  | succ n ih =>
    intro v l h
    obtain ⟨ds, hds, hl⟩ := s.getDescendants_unfold h
    have hds2 : List.Forall₂ (fun c d => s.getDescendants (n + 1) c = some d)
        (s.getChildren v) ds := hds.imp (fun c d hcd => ih c d hcd)
    rw [getDescendants, descendantsLoop_of_forall₂ _ hds2, hl]
    rfl

theorem getDescendants_mono (s : IterationSchedule) {n m : Nat} {v : Var} {l : List Var}
    (h : s.getDescendants n v = some l) (hm : n ≤ m) : s.getDescendants m v = some l := by
  induction hm with
  | refl => exact h
  | step _ ih => exact s.getDescendants_succ _ _ _ ih

theorem getDescendants_returns (s : IterationSchedule) {n : Nat} {v : Var} {l : List Var}
    (h : s.getDescendants n v = some l) : Returns (fun fuel => s.getDescendants fuel v) l :=
  ⟨n, fun _ hf => s.getDescendants_mono h hf⟩

theorem getDescendants_uniform (s : IterationSchedule) :
    ∀ cs : List Var, (∀ c ∈ cs, ∃ n l, s.getDescendants n c = some l) →
      ∃ N, ∀ c ∈ cs, ∃ l, s.getDescendants N c = some l := by
  intro cs
  induction cs with
  | nil => exact fun _ => ⟨0, fun c hc => by simp at hc⟩
  | cons c cs ih =>
    intro h
    obtain ⟨n, l, hl⟩ := h c (List.mem_cons_self c cs)
    obtain ⟨N, hN⟩ := ih (fun x hx => h x (List.mem_cons_of_mem c hx))
    refine ⟨max n N, fun x hx => ?_⟩
    rcases List.mem_cons.mp hx with h1 | h1
    · subst h1
      exact ⟨l, s.getDescendants_mono hl (Nat.le_max_left n N)⟩
    · obtain ⟨l2, hl2⟩ := hN x h1
      exact ⟨l2, s.getDescendants_mono hl2 (Nat.le_max_right n N)⟩

theorem getDescendants_terminates (s : IterationSchedule)
    (hac : s.scheduleForest.ChildAcyclic) (v : Var) :
    ∃ n l, s.getDescendants n v = some l := by
  have hwf := s.scheduleForest.child_wellFounded hac
  induction v using hwf.induction
  rename_i v ih
  obtain ⟨N, hN⟩ := s.getDescendants_uniform (s.getChildren v) (fun c hc => ih c hc)
  obtain ⟨ds, hds⟩ := forall₂_of_forall_mem (s.getChildren v) hN
  exact ⟨N + 1, _, by rw [getDescendants]; exact descendantsLoop_of_forall₂ _ hds [v]⟩

theorem reflTransGen_child_iff (s : IterationSchedule) (v x : Var) :
    Relation.ReflTransGen s.scheduleForest.IsChild v x ↔
      x = v ∨ ∃ c ∈ s.getChildren v, Relation.ReflTransGen s.scheduleForest.IsChild c x := by
  constructor
  · intro h
    rcases h.cases_head with h1 | ⟨c, hc, hcx⟩
    · exact Or.inl h1.symm
    · exact Or.inr ⟨c, hc, hcx⟩
  · rintro (h | ⟨c, hc, hcx⟩)
    · subst h
      exact Relation.ReflTransGen.refl
    · exact Relation.ReflTransGen.head hc hcx

theorem transGen_child_iff (s : IterationSchedule) (v x : Var) :
    Relation.TransGen s.scheduleForest.IsChild v x ↔
      ∃ c ∈ s.getChildren v, Relation.ReflTransGen s.scheduleForest.IsChild c x := by
  rw [Relation.TransGen.head'_iff]
  rfl

theorem getDescendants_mem (s : IterationSchedule) :
    ∀ (n : Nat) (v : Var) (l : List Var), s.getDescendants n v = some l →
      ∀ x, x ∈ l ↔ Relation.ReflTransGen s.scheduleForest.IsChild v x := by
  intro n
  induction n with
  | zero => intro v l h; simp [getDescendants] at h
  | succ n ih =>
    intro v l h x
    obtain ⟨ds, hds, hl⟩ := s.getDescendants_unfold h
    rw [hl, List.mem_cons, List.mem_flatten, s.reflTransGen_child_iff,
      forall₂_exists_iff hds (fun c d hcd => ih c d hcd x)]

theorem getDescendants_tail_mem (s : IterationSchedule) {n : Nat} {v : Var} {tail : List Var}
    (h : s.getDescendants n v = some (v :: tail)) (x : Var) :
    x ∈ tail ↔ Relation.TransGen s.scheduleForest.IsChild v x := by
  cases n with
  | zero => simp [getDescendants] at h
  | succ n =>
    obtain ⟨ds, hds, hl⟩ := s.getDescendants_unfold h
    have ht : tail = ds.flatten := (List.cons.inj hl).2
    rw [ht, List.mem_flatten, s.transGen_child_iff,
      forall₂_exists_iff hds (fun c d hcd => s.getDescendants_mem n c d hcd x)]

/-- C10: in a forest without cycles getDescendants(v) returns the pre-order
traversal of the subtree of v: v first, followed by getDescendants(c) for each
child c of v in child order; it contains v, and for every child c it contains
every element of getDescendants(c) and is strictly longer. -/
theorem getDescendants_preorder (s : IterationSchedule)
    (hac : s.scheduleForest.ChildAcyclic) (v : Var) :
    ∃ (l : List Var) (ds : List (List Var)),
      Returns (fun fuel => s.getDescendants fuel v) l ∧
      List.Forall₂ (fun c d => Returns (fun fuel => s.getDescendants fuel c) d)
        (s.getChildren v) ds ∧
      l = v :: ds.flatten ∧ l.head? = some v ∧ v ∈ l ∧
      ∀ c d, c ∈ s.getChildren v → Returns (fun fuel => s.getDescendants fuel c) d →
        (∀ x ∈ d, x ∈ l) ∧ d.length < l.length := by
  obtain ⟨n, l, hl⟩ := s.getDescendants_terminates hac v
  cases n with
  | zero => simp [getDescendants] at hl
  | succ n =>
    obtain ⟨ds, hds, hlds⟩ := s.getDescendants_unfold hl
    have hret : List.Forall₂ (fun c d => Returns (fun fuel => s.getDescendants fuel c) d)
        (s.getChildren v) ds := hds.imp (fun c d hcd => s.getDescendants_returns hcd)
    refine ⟨l, ds, s.getDescendants_returns hl, hret, hlds, by simp [hlds], by simp [hlds], ?_⟩
    intro c d hc hd
    obtain ⟨e, he, hce⟩ := forall₂_mem_left hret hc
    have hde : d = e := hd.unique hce
    subst hde
    constructor
    · intro x hx
      rw [hlds]
      exact List.mem_cons_of_mem _ (List.mem_flatten.mpr ⟨d, he, hx⟩)
    · have := length_le_flatten he
      rw [hlds, List.length_cons]
      omega

theorem getDescendants_preorder_witness :
    ∃ (l : List Var) (ds : List (List Var)),
      Returns (fun fuel => Example.schedule.getDescendants fuel Example.i) l ∧
      List.Forall₂ (fun c d => Returns (fun fuel => Example.schedule.getDescendants fuel c) d)
        (Example.schedule.getChildren Example.i) ds ∧
      l = Example.i :: ds.flatten ∧ l.head? = some Example.i ∧ Example.i ∈ l ∧
      ∀ c d, c ∈ Example.schedule.getChildren Example.i →
        Returns (fun fuel => Example.schedule.getDescendants fuel c) d →
        (∀ x ∈ d, x ∈ l) ∧ d.length < l.length :=
  getDescendants_preorder Example.schedule
    (IterationScheduleForest.childAcyclic_of_rank _ Example.rank (by decide)) Example.i

/-! ### Free descendants -/

theorem freeLoop_true (rec : Var → Option Bool) :
    ∀ cs : List Var, freeLoop rec cs = some true →
      ∃ c ∈ cs, c.isFree = true ∨ rec c = some true := by
  intro cs
  induction cs with
  | nil => intro h; simp [freeLoop] at h
  | cons c cs ih =>
    intro h
    unfold freeLoop at h
    cases hf : c.isFree with
    | true => exact ⟨c, List.mem_cons_self c cs, Or.inl hf⟩
    | false =>
      simp only [hf] at h
      cases hr : rec c with
      | none => simp [hr] at h
      | some b =>
        cases b with
        | true => exact ⟨c, List.mem_cons_self c cs, Or.inr hr⟩
        | false =>
          simp only [hr] at h
          obtain ⟨x, hx, hxx⟩ := ih (by simpa using h)
          exact ⟨x, List.mem_cons_of_mem c hx, hxx⟩

theorem freeLoop_false (rec : Var → Option Bool) :
    ∀ cs : List Var, freeLoop rec cs = some false →
      ∀ c ∈ cs, c.isFree = false ∧ rec c = some false := by
  intro cs
  induction cs with
  | nil => intro _ c hc; simp at hc
  | cons c cs ih =>
    intro h
    unfold freeLoop at h
    cases hf : c.isFree with
    | true => simp [hf] at h
    | false =>
      simp only [hf] at h
      cases hr : rec c with
      | none => simp [hr] at h
      | some b =>
        cases b with
        | true => simp [hr] at h
        | false =>
          simp only [hr] at h
          intro x hx
          rcases List.mem_cons.mp hx with h1 | h1
          · subst h1
            exact ⟨hf, hr⟩
          · exact ih (by simpa using h) x h1

theorem freeLoop_some (rec : Var → Option Bool) :
    ∀ cs : List Var, (∀ c ∈ cs, ∃ b, rec c = some b) → ∃ b, freeLoop rec cs = some b := by
  intro cs
  induction cs with
  | nil => exact fun _ => ⟨false, rfl⟩
  | cons c cs ih =>
    intro h
    obtain ⟨b, hb⟩ := h c (List.mem_cons_self c cs)
    obtain ⟨b2, hb2⟩ := ih (fun x hx => h x (List.mem_cons_of_mem c hx))
    unfold freeLoop
    cases hf : c.isFree with
    | true => exact ⟨true, by simp⟩
    | false =>
      cases b with
      | true => exact ⟨true, by simp [hb]⟩
      | false => exact ⟨b2, by simp [hb, hb2]⟩

theorem freeLoop_mono (rec rec2 : Var → Option Bool)
    (hrec : ∀ c b, rec c = some b → rec2 c = some b) :
    ∀ (cs : List Var) (b : Bool), freeLoop rec cs = some b → freeLoop rec2 cs = some b := by
  intro cs
  induction cs with
  | nil => intro b h; simpa [freeLoop] using h
  | cons c cs ih =>
    intro b h
    unfold freeLoop at h ⊢
    cases hf : c.isFree with
    | true => simpa [hf] using h
    | false =>
      simp only [hf] at h ⊢
      cases hr : rec c with
      | none => simp [hr] at h
      | some r =>
        rw [hrec c r hr]
        cases r with
        | true => simpa [hr] using h
        | false =>
          simp only [hr] at h
          exact ih b (by simpa using h)

theorem hasFreeVariableDescendant_succ (s : IterationSchedule) :
    ∀ (n : Nat) (v : Var) (b : Bool), s.hasFreeVariableDescendant n v = some b →
      s.hasFreeVariableDescendant (n + 1) v = some b := by
  intro n
  induction n with
  | zero => intro v b h; simp [hasFreeVariableDescendant] at h
  | succ n ih =>
    intro v b h
    rw [hasFreeVariableDescendant] at h ⊢
    exact freeLoop_mono _ _ ih _ _ h

theorem hasFreeVariableDescendant_mono (s : IterationSchedule) {n m : Nat} {v : Var} {b : Bool}
    (h : s.hasFreeVariableDescendant n v = some b) (hm : n ≤ m) :
    s.hasFreeVariableDescendant m v = some b := by
  induction hm with
  | refl => exact h
  | step _ ih => exact s.hasFreeVariableDescendant_succ _ _ _ ih

theorem hasFreeVariableDescendant_of_getDescendants (s : IterationSchedule) :
    ∀ (n : Nat) (v : Var) (l : List Var), s.getDescendants n v = some l →
      ∃ b, s.hasFreeVariableDescendant n v = some b := by
  intro n
  induction n with
  | zero => intro v l h; simp [getDescendants] at h
  | succ n ih =>
    intro v l h
    obtain ⟨ds, hds, _⟩ := s.getDescendants_unfold h
    rw [hasFreeVariableDescendant]
    refine freeLoop_some _ _ (fun c hc => ?_)
    obtain ⟨d, _, hd⟩ := forall₂_mem_left hds hc
    exact ih c d hd

theorem hasFreeVariableDescendant_sound (s : IterationSchedule) :
    ∀ (n : Nat) (v : Var) (b : Bool), s.hasFreeVariableDescendant n v = some b →
      (b = true ↔ ∃ d, Relation.TransGen s.scheduleForest.IsChild v d ∧ d.isFree = true) := by
  intro n
  induction n with
  | zero => intro v b h; simp [hasFreeVariableDescendant] at h
  | succ n ih =>
    intro v b h
    rw [hasFreeVariableDescendant] at h
    cases b with
    | true =>
      refine ⟨fun _ => ?_, fun _ => rfl⟩
      obtain ⟨c, hc, hcc⟩ := freeLoop_true _ _ h
      rcases hcc with hf | hr
      · exact ⟨c, Relation.TransGen.single hc, hf⟩
      · obtain ⟨d, hd, hdf⟩ := (ih c true hr).mp rfl
        exact ⟨d, Relation.TransGen.head hc hd, hdf⟩
    | false =>
      refine ⟨fun h0 => Bool.noConfusion h0, fun hex => ?_⟩
      obtain ⟨d, hd, hdf⟩ := hex
      obtain ⟨c, hc, hcd⟩ := (s.transGen_child_iff v d).mp hd
      obtain ⟨hcf, hcr⟩ := freeLoop_false _ _ h c hc
      rcases Relation.reflTransGen_iff_eq_or_transGen.mp hcd with h1 | h1
      · subst h1
        rw [hcf] at hdf
        cases hdf
      · have := (ih c false hcr).mpr ⟨d, h1, hdf⟩
        cases this

/-- C7: in a forest without cycles hasFreeVariableDescendant(v) returns true
exactly when some strict descendant of v is a free variable, a strict
descendant being a variable reached from v by one or more child steps, that is
an element of getDescendants(v) after the leading v. -/
theorem hasFreeVariableDescendant_iff (s : IterationSchedule)
    (hac : s.scheduleForest.ChildAcyclic) (v : Var) :
    ∃ (b : Bool) (tail : List Var),
      Returns (fun fuel => s.hasFreeVariableDescendant fuel v) b ∧
      Returns (fun fuel => s.getDescendants fuel v) (v :: tail) ∧
      (∀ d, d ∈ tail ↔ Relation.TransGen s.scheduleForest.IsChild v d) ∧
      (b = true ↔ ∃ d, Relation.TransGen s.scheduleForest.IsChild v d ∧ d.isFree = true) ∧
      (b = true ↔ ∃ d ∈ tail, d.isFree = true) := by
  obtain ⟨n, l, hl⟩ := s.getDescendants_terminates hac v
  obtain ⟨b, hb⟩ := s.hasFreeVariableDescendant_of_getDescendants n v l hl
  cases n with
  | zero => simp [getDescendants] at hl
  | succ n =>
    obtain ⟨ds, _, hlds⟩ := s.getDescendants_unfold hl
    subst hlds
    have hmem := s.getDescendants_tail_mem hl
    have hsound := s.hasFreeVariableDescendant_sound _ v b hb
    refine ⟨b, ds.flatten, ⟨n + 1, fun _ hf => s.hasFreeVariableDescendant_mono hb hf⟩,
      s.getDescendants_returns hl, hmem, hsound, ?_⟩
    rw [hsound]
    constructor
    · rintro ⟨d, hd, hdf⟩
      exact ⟨d, (hmem d).mpr hd, hdf⟩
    · rintro ⟨d, hd, hdf⟩
      exact ⟨d, (hmem d).mp hd, hdf⟩

theorem hasFreeVariableDescendant_iff_witness :
    ∃ (b : Bool) (tail : List Var),
      Returns (fun fuel => Example.schedule.hasFreeVariableDescendant fuel Example.i) b ∧
      Returns (fun fuel => Example.schedule.getDescendants fuel Example.i) (Example.i :: tail) ∧
      (∀ d, d ∈ tail ↔ Relation.TransGen Example.schedule.scheduleForest.IsChild Example.i d) ∧
      (b = true ↔ ∃ d, Relation.TransGen Example.schedule.scheduleForest.IsChild Example.i d ∧
        d.isFree = true) ∧
      (b = true ↔ ∃ d ∈ tail, d.isFree = true) :=
  hasFreeVariableDescendant_iff Example.schedule
    (IterationScheduleForest.childAcyclic_of_rank _ Example.rank (by decide)) Example.i

/-- The schedule make builds for A(i,j) = B(i,k) * C(k,j) is the example
schedule: root i with children j and k. -/
theorem make_matmul :
    IterationSchedule.make Example.tensorA Example.matmul = .ok Example.schedule := rfl

end IterationSchedule

/-! ### Format invariants -/

theorem Format.Constructed.order_sizes {f : Format} (hf : f.Constructed) :
    ∃ n, f.getOrder = .ok n ∧ f.getDimensionTypes.length = n ∧
      f.getDimensionOrder.length = n ∧ f.getLevels.length = n := by
  have hlen := hf.sizes_eq
  refine ⟨f.dimensionTypes.length, ?_, rfl, hlen.symm, ?_⟩
  · simp [Format.getOrder, Format.getDimensionOrder, hlen]
  · rcases hf with h | ⟨t, h⟩ | ⟨T, h⟩ | ⟨T, P, h⟩
    · subst h; rfl
    · subst h; rfl
    · subst h; simp [Format.ofTypes, Format.getLevels]
    · by_cases hl : T.length = P.length
      · rw [Format.make_ok hl] at h
        cases h
        simp [Format.getLevels, hl]
      · simp [Format.make, hl] at h

/-- C16: every Format produced by one of the four constructors has as many
dimension types as dimension order entries and levels, and getOrder returns
that number: its internal assertion does not fail. -/
theorem Format.constructed_sizes (f : Format) (hf : f.Constructed) :
    ∃ n, f.getOrder = .ok n ∧ f.getDimensionTypes.length = n ∧
      f.getDimensionOrder.length = n ∧ f.getLevels.length = n :=
  hf.order_sizes

theorem Format.constructed_sizes_witness :
    ∃ n, (Format.ofTypes [.Dense, .Sparse, .Fixed]).getOrder = .ok n ∧
      (Format.ofTypes [.Dense, .Sparse, .Fixed]).getDimensionTypes.length = n ∧
      (Format.ofTypes [.Dense, .Sparse, .Fixed]).getDimensionOrder.length = n ∧
      (Format.ofTypes [.Dense, .Sparse, .Fixed]).getLevels.length = n :=
  Format.constructed_sizes (Format.ofTypes [.Dense, .Sparse, .Fixed])
    (Or.inr (Or.inr (Or.inl ⟨_, rfl⟩)))

theorem CInt.ext_val {x y : CInt} (h : x.val = y.val) : x = y := by
  cases x
  cases y
  cases h
  rfl

theorem CInt.ofSizeT_val {i : Nat} (h : i < 2147483648) : (CInt.ofSizeT i).val = i := by
  simp only [CInt.ofSizeT, CInt.wrap, Int.ofNat_eq_coe]
  omega

theorem CInt.toSizeT_ofSizeT {i : Nat} (h : i < 2147483648) : (CInt.ofSizeT i).toSizeT = i := by
  have h1 := CInt.ofSizeT_val h
  have h2 := CInt.toSizeT_of_nonneg (CInt.ofSizeT i) (by rw [h1]; exact Int.ofNat_nonneg i)
  omega

theorem Format.isDenseLoop_iff (T : List DimensionType) :
    Format.isDenseLoop T = true ↔ ∀ t ∈ T, t = .Dense := by
  induction T with
  | nil => simp [Format.isDenseLoop]
  | cons t rest ih =>
    by_cases h : t = .Dense
    · simp [Format.isDenseLoop, h, ih]
    · simp [Format.isDenseLoop, h]

/-- C18: isDense returns true exactly when every dimension type of the Format
is Dense; it is true for the Format without dimensions and false for CSR,
whose second dimension type is Sparse. -/
theorem Format.isDense_iff (f : Format) :
    (f.isDense = true ↔ ∀ t ∈ f.getDimensionTypes, t = .Dense) ∧
    Format.empty.isDense = true ∧
    (CSR >>= fun x => pure x.isDense) = .ok false ∧
    (Format.ofTypes [.Dense, .Fixed]).isDense = false := by
  exact ⟨Format.isDenseLoop_iff f.dimensionTypes, rfl, rfl, rfl⟩

theorem Format.identity_order_entry {n : Nat} {P : List CInt}
    (hP : P.map CInt.val = (List.range n).map Int.ofNat) {k : Nat} (hk : k < n) :
    ∃ p, P[k]? = some p ∧ p.val = k ∧ k < 2147483648 := by
  have hlen : P.length = n := by
    have := congrArg List.length hP
    simpa using this
  have hkP : k < P.length := hlen ▸ hk
  have h1 := congrArg (fun l => l[k]?) hP
  simp only [List.getElem?_map, List.getElem?_eq_getElem hkP, List.getElem?_range hk,
    Option.map_some', Option.some.injEq] at h1
  refine ⟨P[k], List.getElem?_eq_getElem hkP, h1, ?_⟩
  have := (P[k]).hi
  rw [h1] at this
  exact Int.ofNat_lt.mp this

theorem Format.ofTypes_levels_getElem? (T : List DimensionType) (k : Nat) :
    (Format.ofTypes T).levels[k]? = (T[k]?).map (fun t => Level.mk k t) := by
  simp only [Format.ofTypes]
  rw [List.getElem?_zipWith]
  by_cases hk : k < T.length
  · simp [List.getElem?_range hk, List.getElem?_eq_getElem hk]
  · have h1 : T[k]? = none := List.getElem?_eq_none (by omega)
    have h2 : (List.range T.length)[k]? = none := List.getElem?_eq_none (by simp; omega)
    simp [h1, h2]

/-- C17: for a list T of n dimension types and P the list [0, 1, ..., n-1] of
ints, Format(T) has dimension order P and level i equal to (dimension i, type
T[i]); Format(T, P) is built and has the same dimension types, dimension order
and levels, and Format(T) == Format(T, P) is true. -/
theorem Format.ofTypes_identity (T : List DimensionType) (P : List CInt)
    (hP : P.map CInt.val = (List.range T.length).map Int.ofNat) :
    (Format.ofTypes T).getDimensionOrder = P ∧
    (∀ i, i < T.length → ∃ t, T[i]? = some t ∧
      (Format.ofTypes T).getLevels[i]? = some (Level.mk i t)) ∧
    ∃ g, Format.make T P = .ok g ∧
      (Format.ofTypes T).getDimensionTypes = g.getDimensionTypes ∧
      (Format.ofTypes T).getDimensionOrder = g.getDimensionOrder ∧
      (Format.ofTypes T).getLevels = g.getLevels ∧
      Format.eq (Format.ofTypes T) g = .ok true := by
  have hlen : P.length = T.length := by
    have := congrArg List.length hP
    simpa using this
  have horder : (Format.ofTypes T).getDimensionOrder = P := by
    simp only [Format.getDimensionOrder, Format.ofTypes]
    apply List.ext_getElem?
    intro k
    by_cases hk : k < T.length
    · obtain ⟨p, hp, hpv, hk31⟩ := Format.identity_order_entry hP hk
      rw [List.getElem?_map, List.getElem?_range hk, hp]
      simp only [Option.map_some', Option.some.injEq]
      exact CInt.ext_val (by rw [CInt.ofSizeT_val hk31, hpv])
    · rw [List.getElem?_eq_none (by simp; omega), List.getElem?_eq_none (by omega)]
  have hlevels : (Format.ofTypes T).levels =
      List.zipWith (fun o t => Level.mk o.toSizeT t) P T := by
    apply List.ext_getElem?
    intro k
    rw [Format.ofTypes_levels_getElem?, Format.make_levels_getElem?]
    by_cases hk : k < T.length
    · obtain ⟨p, hp, hpv, hk31⟩ := Format.identity_order_entry hP hk
      have hps : p.toSizeT = k := by
        have := CInt.toSizeT_of_nonneg p (by rw [hpv]; exact Int.ofNat_nonneg k)
        omega
      simp [hp, List.getElem?_eq_getElem hk, hps]
    · have h1 : T[k]? = none := List.getElem?_eq_none (by omega)
      have h2 : P[k]? = none := List.getElem?_eq_none (by omega)
      simp [h1, h2]
  refine ⟨horder, ?_, _, Format.make_ok hlen.symm, rfl, horder, hlevels, ?_⟩
  · intro i hi
    refine ⟨T[i], List.getElem?_eq_getElem hi, ?_⟩
    simp only [Format.getLevels]
    rw [Format.ofTypes_levels_getElem?, List.getElem?_eq_getElem hi]
    rfl
  · rw [Format.eq_of_constructed (Or.inr (Or.inr (Or.inl ⟨T, rfl⟩)))
      (Or.inr (Or.inr (Or.inr ⟨T, P, Format.make_ok hlen.symm⟩)))]
    simp only [Format.getDimensionTypes, Format.getDimensionOrder] at horder ⊢
    have htypes : (Format.ofTypes T).dimensionTypes = T := rfl
    simp [horder, htypes]

theorem Format.ofTypes_identity_witness :
    (Format.ofTypes [.Dense, .Sparse, .Fixed]).getDimensionOrder = [0, 1, 2] ∧
    (∀ i, i < [DimensionType.Dense, .Sparse, .Fixed].length →
      ∃ t, [DimensionType.Dense, .Sparse, .Fixed][i]? = some t ∧
      (Format.ofTypes [.Dense, .Sparse, .Fixed]).getLevels[i]? = some (Level.mk i t)) ∧
    ∃ g, Format.make [.Dense, .Sparse, .Fixed] [0, 1, 2] = .ok g ∧
      (Format.ofTypes [.Dense, .Sparse, .Fixed]).getDimensionTypes = g.getDimensionTypes ∧
      (Format.ofTypes [.Dense, .Sparse, .Fixed]).getDimensionOrder = g.getDimensionOrder ∧
      (Format.ofTypes [.Dense, .Sparse, .Fixed]).getLevels = g.getLevels ∧
      Format.eq (Format.ofTypes [.Dense, .Sparse, .Fixed]) g = .ok true :=
  Format.ofTypes_identity [.Dense, .Sparse, .Fixed] [0, 1, 2] rfl

/-- C19 (the code at the failing input): in Format({Dense, Dense, Dense},
{1, 2, 0}) the dimension order holds 1 at location 0, and the level stored at
position 1 describes dimension 2, not dimension 0; level i describes dimension
getDimensionOrder()[i] instead. -/
theorem Format.order_location_rotation :
    IsPermutation [1, 2, 0] 3 ∧
    ∃ f, Format.make [.Dense, .Dense, .Dense] [1, 2, 0] = .ok f ∧
      f.getDimensionOrder[0]? = some 1 ∧
      (f.getLevels[1]?).map Level.getDimension = some 2 ∧
      f.getLevels.map Level.getDimension = [1, 2, 0] :=
  ⟨by decide, _, rfl, rfl, rfl, rfl⟩

/-! ### Path derivation is a rearrangement -/

theorem Format.Constructed.level_dimensions_perm {f : Format} (hc : f.Constructed) {n : Nat}
    (hP : IsPermutation f.dimensionOrder n) :
    (f.levels.map Level.getDimension).Perm (List.range n) := by
  have hlen : f.dimensionOrder.length = n := hP.perm_length
  rcases hc with h | ⟨t, h⟩ | ⟨T, h⟩ | ⟨T, P, h⟩
  · subst h
    have : n = 0 := by simpa [Format.empty] using hlen.symm
    subst this
    exact List.Perm.refl _
  · subst h
    have : n = 1 := by simpa [Format.ofType] using hlen.symm
    subst this
    exact List.Perm.refl _
  · subst h
    have hn : T.length = n := by simpa [Format.ofTypes] using hlen
    have : (Format.ofTypes T).levels.map Level.getDimension = List.range n := by
      apply List.ext_getElem?
      intro k
      rw [List.getElem?_map, Format.ofTypes_levels_getElem?]
      by_cases hk : k < T.length
      · rw [List.getElem?_eq_getElem hk, List.getElem?_range (hn ▸ hk)]
        rfl
      · rw [List.getElem?_eq_none (by omega), List.getElem?_eq_none (by simp; omega)]
        rfl
    rw [this]
  · by_cases hl : T.length = P.length
    · rw [Format.make_ok hl] at h
      cases h
      simp only at hlen hP ⊢
      have h1 : (List.zipWith (fun o t => Level.mk o.toSizeT t) P T).map Level.getDimension =
          (P.map CInt.val).map Int.toNat := by
        apply List.ext_getElem?
        intro k
        rw [List.getElem?_map, Format.make_levels_getElem?, List.getElem?_map, List.getElem?_map]
        by_cases hk : k < P.length
        · have hkT : k < T.length := by omega
          rw [List.getElem?_eq_getElem hk, List.getElem?_eq_getElem hkT]
          have hr := hP.mem_range (List.getElem_mem hk)
          have := CInt.toSizeT_of_nonneg _ hr.1
          simp only [Option.map_some', Level.getDimension, Option.some.injEq]
          omega
        · rw [List.getElem?_eq_none (by omega)]
          rfl
      rw [h1]
      have h2 := List.Perm.map Int.toNat hP
      simpa [List.map_map, Function.comp_def] using h2
    · simp [Format.make, hl] at h

/-- C20: for a Format F whose dimension order is a permutation of 0..n-1 and a
logical variable list L of length n, the copy loop of the read visitor reads
only indices below |L| (it returns without an out-of-bounds access), and the
path it derives is a permutation of L; this is the path the read visitor
records. -/
theorem CollectTensorPaths.read_path_perm (F : Format) (L : List Var)
    (hF : F.Constructed) (hP : IsPermutation F.getDimensionOrder L.length) :
    ∃ path, CollectTensorPaths.copyIndexVars F.getLevels L L.length 0 [] = .ok path ∧
      (∀ i, i < L.length → ∃ lv, F.getLevels[i]? = some lv ∧ lv.getDimension < L.length) ∧
      path.Perm L ∧
      ∀ (c : CollectTensorPaths) (site : Nat) (name : String) (vars : List Var),
        c.visit (.read site ⟨name, F, vars⟩ L) =
          .ok ⟨c.tensorPaths ++ [⟨⟨name, F, vars⟩, path⟩],
            mapInsert c.mapReadNodesToPaths (.read site ⟨name, F, vars⟩ L)
              ⟨⟨name, F, vars⟩, path⟩⟩ := by
  obtain ⟨hlv_len, hlv⟩ := hF.level_dimension_lt hP
  obtain ⟨out, hout, hlen, hget⟩ :=
    CollectTensorPaths.copyIndexVars_ok F.getLevels L L.length 0 []
      (fun j _ hj => hlv j (by omega))
  have hsome : out.map some = (F.levels.map Level.getDimension).map (fun d => L[d]?) := by
    apply List.ext_getElem?
    intro k
    rw [List.getElem?_map, List.getElem?_map, List.getElem?_map]
    by_cases hk : k < L.length
    · obtain ⟨lv, x, h1, h2, h3⟩ := hget k hk
      simp only [Nat.zero_add, Format.getLevels] at h1
      rw [h3, h1]
      simp [h2]
    · rw [List.getElem?_eq_none (by omega), List.getElem?_eq_none (by omega)]
      rfl
  have hrange : (List.range L.length).map (fun d => L[d]?) = L.map some := by
    apply List.ext_getElem?
    intro k
    rw [List.getElem?_map, List.getElem?_map]
    by_cases hk : k < L.length
    · rw [List.getElem?_range hk]
      simp [List.getElem?_eq_getElem hk]
    · rw [List.getElem?_eq_none (by simp; omega), List.getElem?_eq_none (by omega)]
      rfl
  have hperm : (out.map some).Perm (L.map some) := by
    rw [hsome, ← hrange]
    exact List.Perm.map _ (hF.level_dimensions_perm hP)
  have hperm2 := List.Perm.map (fun o : Option Var => o.getD ⟨0, .Free⟩) hperm
  simp only [List.map_map, Function.comp_def, Option.getD_some, List.map_id'] at hperm2
  refine ⟨out, by simpa using hout, fun i hi => hlv i hi, hperm2, ?_⟩
  intro c site name vars
  have hord : (TensorBase.mk name F vars).getOrder = .ok L.length := by
    obtain ⟨n, h1, h2, h3, _⟩ := hF.order_sizes
    have : n = L.length := by
      have := hP.perm_length
      simp only [Format.getDimensionOrder] at h3 this
      omega
    subst this
    exact h1
  simp only [CollectTensorPaths.visit, CollectTensorPaths.visitRead, hord, if_true,
    TensorBase.getFormat, hout, List.nil_append]

theorem CollectTensorPaths.read_path_perm_witness :
    ∃ path, CollectTensorPaths.copyIndexVars (Format.mk [⟨1, .Dense⟩, ⟨2, .Dense⟩, ⟨0, .Dense⟩]
        [.Dense, .Dense, .Dense] [1, 2, 0]).getLevels
        [Example.i, Example.j, Example.k] [Example.i, Example.j, Example.k].length 0 []
        = .ok path ∧
      (∀ i, i < [Example.i, Example.j, Example.k].length →
        ∃ lv, (Format.mk [⟨1, .Dense⟩, ⟨2, .Dense⟩, ⟨0, .Dense⟩]
          [.Dense, .Dense, .Dense] [1, 2, 0]).getLevels[i]? = some lv ∧
          lv.getDimension < [Example.i, Example.j, Example.k].length) ∧
      path.Perm [Example.i, Example.j, Example.k] ∧
      ∀ (c : CollectTensorPaths) (site : Nat) (name : String) (vars : List Var),
        c.visit (.read site ⟨name, Format.mk [⟨1, .Dense⟩, ⟨2, .Dense⟩, ⟨0, .Dense⟩]
            [.Dense, .Dense, .Dense] [1, 2, 0], vars⟩ [Example.i, Example.j, Example.k]) =
          .ok ⟨c.tensorPaths ++ [⟨⟨name, Format.mk [⟨1, .Dense⟩, ⟨2, .Dense⟩, ⟨0, .Dense⟩]
            [.Dense, .Dense, .Dense] [1, 2, 0], vars⟩, path⟩],
            mapInsert c.mapReadNodesToPaths (.read site ⟨name,
              Format.mk [⟨1, .Dense⟩, ⟨2, .Dense⟩, ⟨0, .Dense⟩]
                [.Dense, .Dense, .Dense] [1, 2, 0], vars⟩ [Example.i, Example.j, Example.k])
              ⟨⟨name, Format.mk [⟨1, .Dense⟩, ⟨2, .Dense⟩, ⟨0, .Dense⟩]
                [.Dense, .Dense, .Dense] [1, 2, 0], vars⟩, path⟩⟩ :=
  CollectTensorPaths.read_path_perm _ [Example.i, Example.j, Example.k]
    (Or.inr (Or.inr (Or.inr ⟨[.Dense, .Dense, .Dense], [1, 2, 0], rfl⟩))) (by decide)

/-! ### The read-site map of a schedule -/

theorem lookup_mapInsert (m : List (Expr × TensorPath)) (k e : Expr) (v : TensorPath) :
    (mapInsert m k v).lookup e =
      match m.lookup e with
      | some p => some p
      | none => if e = k then some v else none := by
  unfold mapInsert
  cases hk : m.lookup k with
  | some q =>
    cases he : m.lookup e with
    | some p => rfl
    | none =>
      have : e ≠ k := fun h => by rw [h, hk] at he; cases he
      simp [he, this]
  | none =>
    simp only [List.lookup_append]
    cases he : m.lookup e with
    | some p => simp
    | none =>
      by_cases h : e = k
      · simp [h, List.lookup]
      · have hb : (e == k) = false := by simpa using h
        simp [h, List.lookup, hb]

theorem CollectTensorPaths.visitRead_inv {c c2 : CollectTensorPaths} {site : Nat}
    {tensor : TensorBase} {L : List Var} (h : c.visitRead site tensor L = .ok c2) :
    tensor.getOrder = .ok L.length ∧
    ∃ path, CollectTensorPaths.copyIndexVars tensor.getFormat.getLevels L L.length 0 []
        = .ok path ∧
      c2 = ⟨c.tensorPaths ++ [⟨tensor, path⟩],
        mapInsert c.mapReadNodesToPaths (.read site tensor L) ⟨tensor, path⟩⟩ := by
  unfold CollectTensorPaths.visitRead at h
  cases ho : tensor.getOrder with
  | error e => simp [ho] at h
  | ok order =>
    simp only [ho] at h
    by_cases hn : order = L.length
    · subst hn
      simp only [if_true] at h
      cases hp : CollectTensorPaths.copyIndexVars tensor.getFormat.getLevels L L.length 0 [] with
      | error e => simp [hp] at h
      | ok path =>
        simp only [hp, Except.ok.injEq] at h
        exact ⟨rfl, path, rfl, h.symm⟩
    · simp [hn] at h

theorem CollectTensorPaths.visit_inv :
    ∀ (expr : Expr) (c c2 : CollectTensorPaths), c.visit expr = .ok c2 →
      (∀ p ∈ c.tensorPaths, p ∈ c2.tensorPaths) ∧
      (∀ e, c2.mapReadNodesToPaths.lookup e = none ↔
        c.mapReadNodesToPaths.lookup e = none ∧ e ∉ expr.readSites) ∧
      (∀ e p, c2.mapReadNodesToPaths.lookup e = some p →
        c.mapReadNodesToPaths.lookup e = some p ∨
          (CollectTensorPaths.Derived e p ∧ p ∈ c2.tensorPaths)) ∧
      (∀ site t L, Expr.read site t L ∈ expr.readSites → t.getOrder = .ok L.length) := by
  intro expr
  induction expr with
  | read site tensor L =>
    intro c c2 h
    simp only [CollectTensorPaths.visit] at h
    obtain ⟨hord, path, hpath, hc2⟩ := CollectTensorPaths.visitRead_inv h
    subst hc2
    refine ⟨fun p hp => List.mem_append_left _ hp, ?_, ?_, ?_⟩
    · intro e
      simp only [lookup_mapInsert, Expr.readSites, List.mem_singleton]
      cases he : c.mapReadNodesToPaths.lookup e with
      | some p => simp
      | none => by_cases hk : e = .read site tensor L <;> simp [hk]
    · intro e p hp
      simp only [lookup_mapInsert] at hp
      cases he : c.mapReadNodesToPaths.lookup e with
      | some q =>
        simp only [he] at hp
        exact Or.inl hp
      | none =>
        simp only [he] at hp
        by_cases hk : e = .read site tensor L
        · simp only [hk, if_true, Option.some.injEq] at hp
          subst hp
          exact Or.inr ⟨⟨site, tensor, L, path, hk, hpath, rfl⟩, by simp⟩
        · simp [hk] at hp
    · intro s2 t2 L2 hmem
      simp only [Expr.readSites, List.mem_singleton] at hmem
      cases hmem
      exact hord
  | unary a ih =>
    intro c c2 h
    simp only [CollectTensorPaths.visit] at h
    exact ih c c2 h
  | binary a b iha ihb =>
    intro c c2 h
    simp only [CollectTensorPaths.visit] at h
    cases ha : c.visit a with
    | error e => simp [ha] at h
    | ok c1 =>
      simp only [ha] at h
      obtain ⟨a1, a2, a3, a4⟩ := iha c c1 ha
      obtain ⟨b1, b2, b3, b4⟩ := ihb c1 c2 h
      refine ⟨fun p hp => b1 p (a1 p hp), ?_, ?_, ?_⟩
      · intro e
        rw [b2 e, a2 e]
        simp only [Expr.readSites, List.mem_append, not_or, and_assoc]
      · intro e p hp
        rcases b3 e p hp with h1 | h1
        · rcases a3 e p h1 with h2 | ⟨h2, h3⟩
          · exact Or.inl h2
          · exact Or.inr ⟨h2, b1 p h3⟩
        · exact Or.inr h1
      · intro s2 t2 L2 hmem
        simp only [Expr.readSites, List.mem_append] at hmem
        rcases hmem with h1 | h1
        · exact a4 s2 t2 L2 h1
        · exact b4 s2 t2 L2 h1
  | immediate =>
    intro c c2 h
    simp only [CollectTensorPaths.visit, Except.ok.injEq] at h
    subst h
    exact ⟨fun p hp => hp, fun e => by simp [Expr.readSites], fun e p hp => Or.inl hp,
      fun s2 t2 L2 hmem => by simp [Expr.readSites] at hmem⟩

theorem IterationSchedule.make_inv {tensor : TensorBase} {expr : Expr} {s : IterationSchedule}
    (h : IterationSchedule.make tensor expr = .ok s) :
    ∃ c, CollectTensorPaths.visit ⟨[], []⟩ expr = .ok c ∧
      s = ⟨tensor, IterationScheduleForest.ofPaths ([⟨tensor, tensor.getIndexVars⟩] ++ c.tensorPaths),
        ⟨tensor, tensor.getIndexVars⟩, c.tensorPaths, c.mapReadNodesToPaths⟩ := by
  unfold IterationSchedule.make at h
  cases hv : CollectTensorPaths.visit ⟨[], []⟩ expr with
  | error e => simp [hv] at h
  | ok c =>
    simp only [hv, Except.ok.injEq] at h
    exact ⟨c, rfl, h.symm⟩

/-- C14: in a schedule built by make, getTensorPath(e) for a read site e of the
compiled expression returns the TensorPath derived at that site, which is an
element of getTensorPaths(); for an expression handle e that is not a read
site of the compiled expression it fails with LookupError. -/
theorem IterationSchedule.getTensorPath_spec (tensor : TensorBase) (expr : Expr)
    (s : IterationSchedule) (h : IterationSchedule.make tensor expr = .ok s) (e : Expr) :
    (e ∈ expr.readSites → ∃ p, s.getTensorPath e = .ok p ∧
      CollectTensorPaths.Derived e p ∧ p ∈ s.getTensorPaths) ∧
    (e ∉ expr.readSites → s.getTensorPath e = .error .LookupError) := by
  obtain ⟨c, hv, hs⟩ := IterationSchedule.make_inv h
  subst hs
  obtain ⟨_, h2, h3, _⟩ := CollectTensorPaths.visit_inv expr _ c hv
  simp only [IterationSchedule.getTensorPath, IterationSchedule.getTensorPaths]
  constructor
  · intro he
    cases hl : c.mapReadNodesToPaths.lookup e with
    | none => exact absurd he ((h2 e).mp hl).2
    | some p =>
      rcases h3 e p hl with h4 | h4
      · simp [List.lookup] at h4
      · exact ⟨p, rfl, h4⟩
  · intro he
    have : c.mapReadNodesToPaths.lookup e = none := (h2 e).mpr ⟨rfl, he⟩
    simp [this]

theorem IterationSchedule.getTensorPath_spec_witness :
    (Expr.read 1 Example.tensorC [Example.k, Example.j] ∈ Example.matmul.readSites →
      ∃ p, Example.schedule.getTensorPath (.read 1 Example.tensorC [Example.k, Example.j])
          = .ok p ∧
        CollectTensorPaths.Derived (.read 1 Example.tensorC [Example.k, Example.j]) p ∧
        p ∈ Example.schedule.getTensorPaths) ∧
    (Expr.read 1 Example.tensorC [Example.k, Example.j] ∉ Example.matmul.readSites →
      Example.schedule.getTensorPath (.read 1 Example.tensorC [Example.k, Example.j])
        = .error .LookupError) :=
  IterationSchedule.getTensorPath_spec Example.tensorA Example.matmul Example.schedule rfl _

/-! ### The shape check of make -/

theorem CollectTensorPaths.visitRead_ok_of_perm (c : CollectTensorPaths) (site : Nat)
    (tensor : TensorBase) (L : List Var) (hF : tensor.getFormat.Constructed) {n : Nat}
    (hP : IsPermutation tensor.getFormat.getDimensionOrder n)
    (hL : tensor.getOrder = .ok L.length) :
    ∃ c2, c.visitRead site tensor L = .ok c2 := by
  have hn : n = L.length := by
    obtain ⟨m, h1, _, h3, _⟩ := hF.order_sizes
    have h4 := hP.perm_length
    have h5 : tensor.getFormat.getOrder = .ok L.length := hL
    rw [h1] at h5
    simp only [Format.getDimensionOrder] at h3 h4
    cases h5
    omega
  subst hn
  obtain ⟨_, hlv⟩ := hF.level_dimension_lt hP
  obtain ⟨out, hout, _, _⟩ :=
    CollectTensorPaths.copyIndexVars_ok tensor.getFormat.getLevels L L.length 0 []
      (fun j _ hj => hlv j (by omega))
  refine ⟨⟨c.tensorPaths ++ [⟨tensor, out⟩],
    mapInsert c.mapReadNodesToPaths (.read site tensor L) ⟨tensor, out⟩⟩, ?_⟩
  simp only [CollectTensorPaths.visitRead, hL, if_true, hout, List.nil_append]

theorem CollectTensorPaths.visitRead_mismatch (c : CollectTensorPaths) (site : Nat)
    (tensor : TensorBase) (L : List Var) (hF : tensor.getFormat.Constructed)
    (hL : tensor.getOrder ≠ .ok L.length) :
    c.visitRead site tensor L = .error .ShapeMismatchError := by
  obtain ⟨m, h1, _⟩ := hF.order_sizes
  have h2 : tensor.getOrder = .ok m := h1
  have hm : m ≠ L.length := fun h => hL (by rw [h2, h])
  simp [CollectTensorPaths.visitRead, h2, hm]

theorem CollectTensorPaths.visit_result :
    ∀ (expr : Expr) (c : CollectTensorPaths),
      (∀ site t L, Expr.read site t L ∈ expr.readSites →
        t.getFormat.Constructed ∧ ∃ n, IsPermutation t.getFormat.getDimensionOrder n) →
      ((∀ site t L, Expr.read site t L ∈ expr.readSites → t.getOrder = .ok L.length) →
        ∃ c2, c.visit expr = .ok c2) ∧
      ((∃ site t L, Expr.read site t L ∈ expr.readSites ∧ t.getOrder ≠ .ok L.length) →
        c.visit expr = .error .ShapeMismatchError) := by
  intro expr
  induction expr with
  | read site tensor L =>
    intro c hwf
    obtain ⟨hF, n, hP⟩ := hwf site tensor L (by simp [Expr.readSites])
    constructor
    · intro hall
      exact CollectTensorPaths.visitRead_ok_of_perm c site tensor L hF hP
        (hall site tensor L (by simp [Expr.readSites]))
    · rintro ⟨s2, t2, L2, hmem, hne⟩
      simp only [Expr.readSites, List.mem_singleton] at hmem
      cases hmem
      exact CollectTensorPaths.visitRead_mismatch c _ _ _ hF hne
  | unary a ih =>
    intro c hwf
    exact ih c hwf
  | binary a b iha ihb =>
    intro c hwf
    have hwfa : ∀ site t L, Expr.read site t L ∈ a.readSites →
        t.getFormat.Constructed ∧ ∃ n, IsPermutation t.getFormat.getDimensionOrder n :=
      fun site t L hm => hwf site t L (by simp [Expr.readSites, hm])
    have hwfb : ∀ site t L, Expr.read site t L ∈ b.readSites →
        t.getFormat.Constructed ∧ ∃ n, IsPermutation t.getFormat.getDimensionOrder n :=
      fun site t L hm => hwf site t L (by simp [Expr.readSites, hm])
    constructor
    · intro hall
      obtain ⟨c1, hc1⟩ := (iha c hwfa).1
        (fun site t L hm => hall site t L (by simp [Expr.readSites, hm]))
      obtain ⟨c2, hc2⟩ := (ihb c1 hwfb).1
        (fun site t L hm => hall site t L (by simp [Expr.readSites, hm]))
      exact ⟨c2, by simp only [CollectTensorPaths.visit, hc1, hc2]⟩
    · rintro ⟨s2, t2, L2, hmem, hne⟩
      by_cases hbad : ∃ site t L, Expr.read site t L ∈ a.readSites ∧ t.getOrder ≠ .ok L.length
      · have := (iha c hwfa).2 hbad
        simp only [CollectTensorPaths.visit, this]
      · have hgood : ∀ site t L, Expr.read site t L ∈ a.readSites →
            t.getOrder = .ok L.length := by
          intro site t L hm
          by_contra hcon
          exact hbad ⟨site, t, L, hm, hcon⟩
        obtain ⟨c1, hc1⟩ := (iha c hwfa).1 hgood
        have hmb : Expr.read s2 t2 L2 ∈ b.readSites := by
          simp only [Expr.readSites, List.mem_append] at hmem
          rcases hmem with h1 | h1
          · exact absurd (hgood s2 t2 L2 h1) hne
          · exact h1
        have := (ihb c1 hwfb).2 ⟨s2, t2, L2, hmb, hne⟩
        simp only [CollectTensorPaths.visit, hc1, this]
  | immediate =>
    intro c _
    constructor
    · intro _
      exact ⟨c, rfl⟩
    · rintro ⟨s2, t2, L2, hmem, _⟩
      simp [Expr.readSites] at hmem

/-- C15: make is fail-fast on a shape mismatch.  If some read access of the
expression has a number of logical variables different from the order of its
tensor, make produces no schedule; when the Formats of the read accesses have
permutation dimension orders, the failure is a ShapeMismatchError, and when in
addition every read access has as many variables as its tensor's order, make
succeeds. -/
theorem IterationSchedule.make_shape_check (tensor : TensorBase) (expr : Expr) :
    ((∃ site t L, Expr.read site t L ∈ expr.readSites ∧ t.getOrder ≠ .ok L.length) →
      (∃ e, IterationSchedule.make tensor expr = .error e) ∧
      ∀ s, IterationSchedule.make tensor expr ≠ .ok s) ∧
    ((∀ site t L, Expr.read site t L ∈ expr.readSites →
        t.getFormat.Constructed ∧ ∃ n, IsPermutation t.getFormat.getDimensionOrder n) →
      ((∃ site t L, Expr.read site t L ∈ expr.readSites ∧ t.getOrder ≠ .ok L.length) →
        IterationSchedule.make tensor expr = .error .ShapeMismatchError) ∧
      ((∀ site t L, Expr.read site t L ∈ expr.readSites → t.getOrder = .ok L.length) →
        ∃ s, IterationSchedule.make tensor expr = .ok s)) := by
  constructor
  · rintro ⟨site, t, L, hmem, hne⟩
    have hno : ∀ s, IterationSchedule.make tensor expr ≠ .ok s := by
      intro s hs
      obtain ⟨c, hv, _⟩ := IterationSchedule.make_inv hs
      exact hne ((CollectTensorPaths.visit_inv expr _ c hv).2.2.2 site t L hmem)
    refine ⟨?_, hno⟩
    cases hm : IterationSchedule.make tensor expr with
    | error e => exact ⟨e, rfl⟩
    | ok s => exact absurd hm (hno s)
  · intro hwf
    have hres := CollectTensorPaths.visit_result expr ⟨[], []⟩ hwf
    constructor
    · intro hbad
      simp only [IterationSchedule.make, hres.2 hbad]
    · intro hall
      obtain ⟨c, hc⟩ := hres.1 hall
      refine ⟨⟨tensor, IterationScheduleForest.ofPaths
        ([⟨tensor, tensor.getIndexVars⟩] ++ c.tensorPaths),
        ⟨tensor, tensor.getIndexVars⟩, c.tensorPaths, c.mapReadNodesToPaths⟩, ?_⟩
      simp only [IterationSchedule.make, hc]

theorem IterationSchedule.make_shape_check_witness :
    IterationSchedule.make Example.tensorA
      (.binary (.read 0 Example.tensorB [Example.i, Example.k])
        (.read 1 Example.tensorC [Example.k])) = .error .ShapeMismatchError :=
  ((IterationSchedule.make_shape_check Example.tensorA
      (.binary (.read 0 Example.tensorB [Example.i, Example.k])
        (.read 1 Example.tensorC [Example.k]))).2
    (by
      intro site t L hm
      simp only [Expr.readSites, List.cons_append, List.nil_append, List.mem_cons,
        List.mem_singleton, Expr.read.injEq, List.not_mem_nil, or_false] at hm
      rcases hm with ⟨_, rfl, _⟩ | ⟨_, rfl, _⟩
      · exact ⟨Or.inr (Or.inr (Or.inr ⟨[.Dense, .Sparse], [0, 1], rfl⟩)), 2, by decide⟩
      · exact ⟨Or.inr (Or.inr (Or.inr ⟨[.Dense, .Sparse], [0, 1], rfl⟩)), 2, by decide⟩)).1
    ⟨1, Example.tensorC, [Example.k], by simp [Expr.readSites], by
      intro h
      cases h⟩

/-! ### Forest construction -/

namespace IterationScheduleForest

theorem lookup_appendChild (m : List (Var × List Var)) (u v p : Var) :
    (appendChild m u v).lookup p =
      if p = u then some ((match m.lookup u with | some cs => cs | none => []) ++ [v])
      else m.lookup p := by
  induction m with
  | nil =>
    by_cases hp : p = u
    · simp [appendChild, List.lookup, hp]
    · have hb : (p == u) = false := by simpa using hp
      simp [appendChild, List.lookup, hp, hb]
  | cons e rest ih =>
    obtain ⟨k, cs⟩ := e
    by_cases hk : k = u
    · subst hk
      by_cases hp : p = k
      · subst hp
        simp [appendChild, List.lookup_cons]
      · have hb : (p == k) = false := by simpa using hp
        simp [appendChild, List.lookup_cons, hp, hb]
    · have hbu : (u == k) = false := by simpa using fun h : u = k => hk h.symm
      by_cases hp : p = k
      · subst hp
        have hpu : ¬ p = u := hk
        simp [appendChild, List.lookup_cons, hk, hpu]
      · have hb : (p == k) = false := by simpa using hp
        simp only [appendChild, hk, if_false, List.lookup_cons, hb, hbu]
        exact ih

theorem parents_addRoot (f : IterationScheduleForest) (v : Var) :
    (f.addRoot v).parents = f.parents ∧ (f.addRoot v).children = f.children := by
  unfold addRoot
  split <;> exact ⟨rfl, rfl⟩

theorem lookup_parents_addEdge (f : IterationScheduleForest) (u v c : Var) :
    (f.addEdge u v).parents.lookup c =
      (f.parents.lookup c).or (if c = v then some u else none) := by
  unfold addEdge
  cases hv : f.parents.lookup v with
  | some q =>
    have hp : f.hasParent v = true := by simp [hasParent, hv]
    simp only [hp, if_true]
    by_cases hc : c = v
    · subst hc
      simp [hv]
    · simp [hc]
  | none =>
    have hp : f.hasParent v = false := by simp [hasParent, hv]
    simp only [hp, Bool.false_eq_true, if_false, List.lookup_append]
    by_cases hc : c = v
    · simp [hc, List.lookup]
    · have hb : (c == v) = false := by simpa using hc
      simp [hc, List.lookup, hb]

theorem getChildren_addEdge (f : IterationScheduleForest) (u v p : Var) :
    (f.addEdge u v).getChildren p =
      if f.hasParent v = true then f.getChildren p
      else if p = u then f.getChildren u ++ [v] else f.getChildren p := by
  unfold addEdge
  by_cases hp : f.hasParent v = true
  · rw [if_pos hp, if_pos hp]
  · rw [if_neg hp, if_neg hp]
    unfold getChildren
    simp only [lookup_appendChild]
    by_cases hpu : p = u
    · subst hpu
      rw [if_pos rfl, if_pos rfl]
    · rw [if_neg hpu, if_neg hpu]

theorem consistent_empty : Consistent ⟨[], [], []⟩ := by
  intro p c
  simp [getChildren, getParent, List.lookup]

theorem consistent_addRoot {f : IterationScheduleForest} (h : f.Consistent) (v : Var) :
    (f.addRoot v).Consistent := by
  intro p c
  have := h p c
  unfold getChildren getParent at this ⊢
  rw [(f.parents_addRoot v).1, (f.parents_addRoot v).2]
  exact this

theorem consistent_addEdge {f : IterationScheduleForest} (h : f.Consistent) (u v : Var) :
    (f.addEdge u v).Consistent := by
  intro p c
  rw [getChildren_addEdge, getParent_eq_ok_iff, lookup_parents_addEdge]
  have hold := h p c
  rw [getParent_eq_ok_iff] at hold
  by_cases hp : f.hasParent v = true
  · rw [if_pos hp, hold]
    by_cases hc : c = v
    · subst hc
      have : ∃ q, f.parents.lookup c = some q := by
        simpa [hasParent, Option.isSome_iff_exists] using hp
      obtain ⟨q, hq⟩ := this
      simp [hq]
    · simp [hc]
  · have hv : f.parents.lookup v = none := by
      cases hl : f.parents.lookup v with
      | none => rfl
      | some q => exact absurd (by simp [hasParent, hl]) hp
    rw [if_neg hp]
    by_cases hpu : p = u
    · subst hpu
      rw [if_pos rfl, List.mem_append, List.mem_singleton, hold]
      by_cases hc : c = v
      · subst hc
        simp [hv]
      · simp [hc]
    · rw [if_neg hpu, hold]
      by_cases hc : c = v
      · subst hc
        simp only [hv, if_true, Option.none_or, Option.some.injEq]
        constructor
        · intro h1
          cases h1
        · intro h1
          exact absurd h1.symm hpu
      · simp [hc]

theorem consistent_addEdges :
    ∀ (path : List Var) (f : IterationScheduleForest), f.Consistent →
      (f.addEdges path).Consistent := by
  intro path
  induction path with
  | nil => intro f h; simpa [addEdges] using h
  | cons u rest ih =>
    intro f h
    cases rest with
    | nil => simpa [addEdges] using h
    | cons v rest2 =>
      simp only [addEdges]
      exact ih _ (consistent_addEdge h u v)

theorem consistent_addPath {f : IterationScheduleForest} (h : f.Consistent) (path : List Var) :
    (f.addPath path).Consistent := by
  unfold addPath
  cases path with
  | nil => exact h
  | cons u rest => exact consistent_addEdges _ _ (consistent_addRoot h u)

theorem consistent_foldl :
    ∀ (paths : List TensorPath) (f : IterationScheduleForest), f.Consistent →
      (paths.foldl (fun f p => addPath f p.getVariables) f).Consistent := by
  intro paths
  induction paths with
  | nil => intro f h; exact h
  | cons p rest ih =>
    intro f h
    exact ih _ (consistent_addPath h _)

theorem consistent_ofPaths (paths : List TensorPath) : (ofPaths paths).Consistent :=
  consistent_foldl paths _ consistent_empty

theorem firstParent_cons (a b : Var) (ps : List (Var × Var)) (v : Var) :
    firstParent ((a, b) :: ps) v = if b = v then some a else firstParent ps v := by
  unfold firstParent
  by_cases h : b = v
  · simp [List.find?_cons, h]
  · simp [List.find?_cons, h]

theorem firstParent_append (ps qs : List (Var × Var)) (v : Var) :
    firstParent (ps ++ qs) v = (firstParent ps v).or (firstParent qs v) := by
  induction ps with
  | nil => simp [firstParent]
  | cons e rest ih =>
    obtain ⟨a, b⟩ := e
    rw [List.cons_append, firstParent_cons, firstParent_cons, ih]
    by_cases h : b = v
    · simp [h]
    · simp [h]

theorem firstParent_mem {ps : List (Var × Var)} {v w : Var} (h : firstParent ps v = some w) :
    (w, v) ∈ ps := by
  induction ps with
  | nil => simp [firstParent] at h
  | cons e rest ih =>
    obtain ⟨a, b⟩ := e
    rw [firstParent_cons] at h
    by_cases hb : b = v
    · rw [if_pos hb] at h
      cases h
      subst hb
      exact List.mem_cons_self _ _
    · rw [if_neg hb] at h
      exact List.mem_cons_of_mem _ (ih h)

theorem consecutivePairs_mem_vars :
    ∀ (path : List Var) (u v : Var), (u, v) ∈ consecutivePairs path → u ∈ path ∧ v ∈ path := by
  intro path
  induction path with
  | nil => intro u v h; simp [consecutivePairs] at h
  | cons a rest ih =>
    intro u v h
    cases rest with
    | nil => simp [consecutivePairs] at h
    | cons b rest2 =>
      simp only [consecutivePairs, List.mem_cons, Prod.mk.injEq] at h
      rcases h with ⟨h1, h2⟩ | h
      · subst h1
        subst h2
        simp
      · obtain ⟨h1, h2⟩ := ih u v h
        exact ⟨List.mem_cons_of_mem _ h1, List.mem_cons_of_mem _ h2⟩

theorem lookup_parents_addEdges :
    ∀ (path : List Var) (f : IterationScheduleForest) (c : Var),
      (f.addEdges path).parents.lookup c =
        (f.parents.lookup c).or (firstParent (consecutivePairs path) c) := by
  intro path
  induction path with
  | nil => intro f c; simp [addEdges, consecutivePairs, firstParent]
  | cons u rest ih =>
    intro f c
    cases rest with
    | nil => simp [addEdges, consecutivePairs, firstParent]
    | cons v rest2 =>
      simp only [addEdges, consecutivePairs]
      rw [ih, lookup_parents_addEdge, firstParent_cons]
      cases f.parents.lookup c with
      | some q => simp
      | none =>
        by_cases hc : c = v
        · subst hc
          simp
        · have hc2 : ¬ v = c := fun h => hc h.symm
          simp [hc, hc2]

theorem lookup_parents_addPath (f : IterationScheduleForest) (path : List Var) (c : Var) :
    (f.addPath path).parents.lookup c =
      (f.parents.lookup c).or (firstParent (consecutivePairs path) c) := by
  unfold addPath
  cases path with
  | nil => simp [consecutivePairs, firstParent]
  | cons u rest =>
    simp only
    rw [lookup_parents_addEdges, (f.parents_addRoot u).1]

theorem lookup_parents_foldl :
    ∀ (paths : List TensorPath) (f : IterationScheduleForest) (c : Var),
      (paths.foldl (fun f p => addPath f p.getVariables) f).parents.lookup c =
        (f.parents.lookup c).or (firstParent (pathPairs paths) c) := by
  intro paths
  induction paths with
  | nil => intro f c; simp [pathPairs, firstParent]
  | cons p rest ih =>
    intro f c
    simp only [List.foldl_cons]
    rw [ih, lookup_parents_addPath]
    have : pathPairs (p :: rest) = consecutivePairs p.getVariables ++ pathPairs rest := by
      simp [pathPairs]
    rw [this, firstParent_append]
    cases f.parents.lookup c <;> simp

theorem lookup_parents_ofPaths (paths : List TensorPath) (c : Var) :
    (ofPaths paths).parents.lookup c = firstParent (pathPairs paths) c := by
  unfold ofPaths
  rw [lookup_parents_foldl]
  simp [List.lookup]

theorem isPlaced_iff (f : IterationScheduleForest) (v : Var) :
    f.isPlaced v = true ↔ v ∈ f.roots ∨ f.hasParent v = true := by
  simp [isPlaced]

theorem hasParent_addEdge (f : IterationScheduleForest) (u v c : Var) :
    (f.addEdge u v).hasParent c = true ↔ f.hasParent c = true ∨ c = v := by
  unfold hasParent
  rw [lookup_parents_addEdge]
  cases f.parents.lookup c with
  | some q => simp
  | none =>
    by_cases hc : c = v
    · simp [hc]
    · simp [hc]

theorem roots_addEdge (f : IterationScheduleForest) (u v : Var) :
    (f.addEdge u v).roots = f.roots := by
  unfold addEdge
  split <;> rfl

theorem placed_addEdge_mono (f : IterationScheduleForest) (u v x : Var)
    (h : f.isPlaced x = true) : (f.addEdge u v).isPlaced x = true := by
  rw [isPlaced_iff] at h ⊢
  rw [roots_addEdge, hasParent_addEdge]
  tauto

theorem placed_addEdge_target (f : IterationScheduleForest) (u v : Var) :
    (f.addEdge u v).isPlaced v = true := by
  rw [isPlaced_iff, hasParent_addEdge]
  exact Or.inr (Or.inr rfl)

theorem placed_addRoot_mono (f : IterationScheduleForest) (v x : Var)
    (h : f.isPlaced x = true) : (f.addRoot v).isPlaced x = true := by
  unfold addRoot
  split
  · exact h
  · rw [isPlaced_iff] at h ⊢
    rcases h with h1 | h1
    · exact Or.inl (List.mem_append_left _ h1)
    · exact Or.inr h1

theorem placed_addRoot_self (f : IterationScheduleForest) (v : Var) :
    (f.addRoot v).isPlaced v = true := by
  unfold addRoot
  by_cases h : f.isPlaced v = true
  · rw [if_pos h]
    exact h
  · rw [if_neg h, isPlaced_iff]
    exact Or.inl (by simp)

theorem placed_addEdges_mono :
    ∀ (path : List Var) (f : IterationScheduleForest) (x : Var),
      f.isPlaced x = true → (f.addEdges path).isPlaced x = true := by
  intro path
  induction path with
  | nil => intro f x h; simpa [addEdges] using h
  | cons u rest ih =>
    intro f x h
    cases rest with
    | nil => simpa [addEdges] using h
    | cons v rest2 =>
      simp only [addEdges]
      exact ih _ x (placed_addEdge_mono f u v x h)

theorem placed_addEdges_all :
    ∀ (path : List Var) (f : IterationScheduleForest),
      (∀ u, path.head? = some u → f.isPlaced u = true) →
      ∀ x ∈ path, (f.addEdges path).isPlaced x = true := by
  intro path
  induction path with
  | nil => intro f _ x hx; simp at hx
  | cons u rest ih =>
    intro f hhead x hx
    have hu : f.isPlaced u = true := hhead u rfl
    cases rest with
    | nil =>
      have : x = u := by simpa using hx
      subst this
      simpa [addEdges] using hu
    | cons v rest2 =>
      simp only [addEdges]
      rcases List.mem_cons.mp hx with h1 | h1
      · subst h1
        exact placed_addEdges_mono _ _ _ (placed_addEdge_mono f x v x hu)
      · refine ih _ ?_ x h1
        intro w hw
        simp only [List.head?_cons, Option.some.injEq] at hw
        subst hw
        exact placed_addEdge_target f u v

theorem placed_addPath_mono (f : IterationScheduleForest) (path : List Var) (x : Var)
    (h : f.isPlaced x = true) : (f.addPath path).isPlaced x = true := by
  unfold addPath
  cases path with
  | nil => exact h
  | cons u rest => exact placed_addEdges_mono _ _ _ (placed_addRoot_mono f u x h)

theorem placed_addPath_all (f : IterationScheduleForest) (path : List Var) :
    ∀ x ∈ path, (f.addPath path).isPlaced x = true := by
  unfold addPath
  cases path with
  | nil => intro x hx; simp at hx
  | cons u rest =>
    refine placed_addEdges_all _ _ ?_
    intro w hw
    simp only [List.head?_cons, Option.some.injEq] at hw
    subst hw
    exact placed_addRoot_self f u

theorem placed_foldl :
    ∀ (paths : List TensorPath) (f : IterationScheduleForest),
      (∀ x, f.isPlaced x = true →
        (paths.foldl (fun f p => addPath f p.getVariables) f).isPlaced x = true) ∧
      (∀ p ∈ paths, ∀ x ∈ p.getVariables,
        (paths.foldl (fun f p => addPath f p.getVariables) f).isPlaced x = true) := by
  intro paths
  induction paths with
  | nil => intro f; exact ⟨fun x h => h, fun p hp => by simp at hp⟩
  | cons q rest ih =>
    intro f
    obtain ⟨ih1, ih2⟩ := ih (f.addPath q.getVariables)
    refine ⟨fun x h => ih1 x (placed_addPath_mono f _ x h), ?_⟩
    intro p hp x hx
    rcases List.mem_cons.mp hp with h1 | h1
    · subst h1
      exact ih1 x (placed_addPath_all f _ x hx)
    · exact ih2 p h1 x hx

theorem placed_ofPaths (paths : List TensorPath) :
    ∀ p ∈ paths, ∀ x ∈ p.getVariables, (ofPaths paths).isPlaced x = true :=
  (placed_foldl paths _).2

theorem parent_placed_ofPaths (paths : List TensorPath) {c w : Var}
    (h : (ofPaths paths).getParent c = .ok w) : (ofPaths paths).isPlaced w = true := by
  rw [getParent_eq_ok_iff, lookup_parents_ofPaths] at h
  have hmem := firstParent_mem h
  unfold pathPairs at hmem
  obtain ⟨p, hp, hpair⟩ := List.mem_flatMap.mp hmem
  exact placed_ofPaths paths p hp w (consecutivePairs_mem_vars _ _ _ hpair).1

theorem isChild_of_isParent_chain (f : IterationScheduleForest) (hc : f.Consistent) {v r : Var}
    (h : Relation.ReflTransGen f.IsParent v r) : Relation.ReflTransGen f.IsChild r v := by
  induction h with
  | refl => exact Relation.ReflTransGen.refl
  | tail _ hbc ih => exact Relation.ReflTransGen.head ((hc _ _).mpr hbc) ih

theorem isParent_of_isChild_chain (f : IterationScheduleForest) (hc : f.Consistent) {v r : Var}
    (h : Relation.ReflTransGen f.IsChild r v) : Relation.ReflTransGen f.IsParent v r := by
  induction h with
  | refl => exact Relation.ReflTransGen.refl
  | tail _ hbc ih => exact Relation.ReflTransGen.head ((hc _ _).mp hbc) ih

theorem eq_of_reflTransGen_root (f : IterationScheduleForest) {r x : Var}
    (hr : f.hasParent r = false) (h : Relation.ReflTransGen f.IsParent r x) : r = x := by
  rcases h.cases_head with h1 | ⟨c, hc, _⟩
  · exact h1
  · rw [hasParent_eq_false_iff] at hr
    have := (f.getParent_eq_ok_iff r c).mp hc
    rw [hr] at this
    cases this

end IterationScheduleForest

theorem IterationSchedule.make_forest {tensor : TensorBase} {expr : Expr}
    {s : IterationSchedule} (h : IterationSchedule.make tensor expr = .ok s) :
    s.scheduleForest =
      IterationScheduleForest.ofPaths (s.getResultTensorPath :: s.getTensorPaths) := by
  obtain ⟨c, _, hs⟩ := IterationSchedule.make_inv h
  subst hs
  rfl

/-- What the construction rule does establish for every index variable v of an
input path: v is in the children of a exactly when its parent is a, so it has
at most one parent, and it is an element of getRoots() or has a parent.  Under
the hypothesis that the parent relation is acyclic, the parent chain of v
terminates and v is reachable by child steps from exactly one variable without
parent, which is an element of getRoots(). -/
theorem IterationSchedule.make_forest_structure (tensor : TensorBase) (expr : Expr)
    (s : IterationSchedule) (h : IterationSchedule.make tensor expr = .ok s)
    (p : TensorPath) (hp : p ∈ s.getResultTensorPath :: s.getTensorPaths)
    (v : Var) (hv : v ∈ p.getVariables) :
    (∀ a b, v ∈ s.getChildren a → v ∈ s.getChildren b → a = b) ∧
    (∀ a, v ∈ s.getChildren a ↔ s.getParent v = .ok a) ∧
    (v ∈ s.getRoots ∨ s.scheduleForest.hasParent v = true) ∧
    (s.scheduleForest.ParentAcyclic →
      (∃ l, Returns (fun fuel => s.getAncestors fuel v) (.ok l)) ∧
      ∃ r, r ∈ s.getRoots ∧ s.scheduleForest.hasParent r = false ∧
        Relation.ReflTransGen s.scheduleForest.IsChild r v ∧
        ∀ r2, s.scheduleForest.hasParent r2 = false →
          Relation.ReflTransGen s.scheduleForest.IsChild r2 v → r2 = r) := by
  have hforest := IterationSchedule.make_forest h
  have hcons : s.scheduleForest.Consistent := by
    rw [hforest]
    exact IterationScheduleForest.consistent_ofPaths _
  have hplaced : ∀ x, (x ∈ p.getVariables ∨ ∃ c, s.scheduleForest.getParent c = .ok x) →
      s.scheduleForest.isPlaced x = true := by
    intro x hx
    rw [hforest]
    rcases hx with hx | ⟨c, hc⟩
    · exact IterationScheduleForest.placed_ofPaths _ p hp x hx
    · rw [hforest] at hc
      exact IterationScheduleForest.parent_placed_ofPaths _ hc
  refine ⟨?_, fun a => hcons a v, ?_, ?_⟩
  · intro a b ha hb
    exact s.scheduleForest.isParent_unique ((hcons a v).mp ha) ((hcons b v).mp hb)
  · exact (s.scheduleForest.isPlaced_iff v).mp (hplaced v (Or.inl hv))
  · intro hac
    obtain ⟨chain, h1, _, _, ⟨r, hr1, hr2⟩, _, h6⟩ := s.ancestors_spec hac v
    have hvr : Relation.ReflTransGen s.scheduleForest.IsParent v r :=
      (h6 r).mp (List.mem_of_getLast?_eq_some hr1)
    have hrplaced : s.scheduleForest.isPlaced r = true := by
      rcases hvr.cases_tail with h2 | ⟨c, _, hc⟩
      · rw [h2]
        exact hplaced v (Or.inl hv)
      · exact hplaced r (Or.inr ⟨c, hc⟩)
    have hroot : r ∈ s.getRoots := by
      rcases (s.scheduleForest.isPlaced_iff r).mp hrplaced with h2 | h2
      · exact h2
      · rw [hr2] at h2
        cases h2
    refine ⟨⟨v :: chain, h1 [v]⟩, r, hroot, hr2,
      s.scheduleForest.isChild_of_isParent_chain hcons hvr, ?_⟩
    intro r2 hr2no hr2v
    have hvr2 := s.scheduleForest.isParent_of_isChild_chain hcons hr2v
    have hru : Relator.RightUnique s.scheduleForest.IsParent :=
      fun a b c hab hac2 => s.scheduleForest.isParent_unique hab hac2
    rcases Relation.ReflTransGen.total_of_right_unique hru hvr hvr2 with h3 | h3
    · exact (s.scheduleForest.eq_of_reflTransGen_root hr2 h3).symm
    · exact s.scheduleForest.eq_of_reflTransGen_root hr2no h3

theorem IterationSchedule.make_forest_structure_witness :
    (∀ a b, Example.k ∈ Example.schedule.getChildren a →
      Example.k ∈ Example.schedule.getChildren b → a = b) ∧
    (∀ a, Example.k ∈ Example.schedule.getChildren a ↔
      Example.schedule.getParent Example.k = .ok a) ∧
    (Example.k ∈ Example.schedule.getRoots ∨
      Example.schedule.scheduleForest.hasParent Example.k = true) ∧
    (Example.schedule.scheduleForest.ParentAcyclic →
      (∃ l, Returns (fun fuel => Example.schedule.getAncestors fuel Example.k) (.ok l)) ∧
      ∃ r, r ∈ Example.schedule.getRoots ∧
        Example.schedule.scheduleForest.hasParent r = false ∧
        Relation.ReflTransGen Example.schedule.scheduleForest.IsChild r Example.k ∧
        ∀ r2, Example.schedule.scheduleForest.hasParent r2 = false →
          Relation.ReflTransGen Example.schedule.scheduleForest.IsChild r2 Example.k →
          r2 = r) :=
  IterationSchedule.make_forest_structure Example.tensorA Example.matmul Example.schedule rfl
    ⟨Example.tensorB, [Example.i, Example.k]⟩ (by decide) Example.k (by decide)

/-! ### The last free variable -/

theorem acc_of_no_reachable_cycle {α : Type} (R : α → α → Prop) (S : List α)
    (hS : ∀ a b, R a b → b ∈ S) (x : α)
    (h : ∀ y, Relation.ReflTransGen (Function.swap R) x y → ¬ Relation.TransGen R y y) :
    Acc R x := by
  have hwf : WellFounded
      (fun a b => R a b ∧ Relation.ReflTransGen (Function.swap R) x b) := by
    refine wellFounded_of_acyclic _ S (fun a b hab => hS a b hab.1) ?_
    intro y hy
    have hy1 : Relation.TransGen R y y := hy.mono (fun a b hab => hab.1)
    obtain ⟨b, _, hby⟩ := Relation.TransGen.tail'_iff.mp hy
    exact h y hby.2 hy1
  have key : ∀ z, Acc (fun a b => R a b ∧ Relation.ReflTransGen (Function.swap R) x b) z →
      Relation.ReflTransGen (Function.swap R) x z → Acc R z := by
    intro z hz
    induction hz with
    | intro z _ ih =>
      intro hxz
      exact Acc.intro z (fun w hwz => ih w ⟨hwz, hxz⟩ (Relation.ReflTransGen.tail hxz hwz))
  exact key x (hwf.apply x) Relation.ReflTransGen.refl

namespace IterationSchedule

theorem freeLoop_some_of_free_or (rec : Var → Option Bool) :
    ∀ cs : List Var, (∀ c ∈ cs, c.isFree = true ∨ ∃ b, rec c = some b) →
      ∃ b, freeLoop rec cs = some b := by
  intro cs
  induction cs with
  | nil => exact fun _ => ⟨false, rfl⟩
  | cons c cs ih =>
    intro h
    obtain ⟨b2, hb2⟩ := ih (fun x hx => h x (List.mem_cons_of_mem c hx))
    unfold freeLoop
    cases hf : c.isFree with
    | true => exact ⟨true, by simp⟩
    | false =>
      rcases h c (List.mem_cons_self c cs) with h1 | ⟨b, hb⟩
      · rw [hf] at h1
        cases h1
      · cases b with
        | true => exact ⟨true, by simp [hb]⟩
        | false => exact ⟨b2, by simp [hb, hb2]⟩

theorem hasFreeVariableDescendant_uniform (s : IterationSchedule) :
    ∀ cs : List Var,
      (∀ c ∈ cs, c.isFree = true ∨ ∃ n b, s.hasFreeVariableDescendant n c = some b) →
      ∃ N, ∀ c ∈ cs, c.isFree = true ∨ ∃ b, s.hasFreeVariableDescendant N c = some b := by
  intro cs
  induction cs with
  | nil => exact fun _ => ⟨0, fun c hc => by simp at hc⟩
  | cons c cs ih =>
    intro h
    obtain ⟨N, hN⟩ := ih (fun x hx => h x (List.mem_cons_of_mem c hx))
    rcases h c (List.mem_cons_self c cs) with h1 | ⟨n, b, hb⟩
    · refine ⟨N, fun x hx => ?_⟩
      rcases List.mem_cons.mp hx with h2 | h2
      · subst h2
        exact Or.inl h1
      · exact hN x h2
    · refine ⟨max n N, fun x hx => ?_⟩
      rcases List.mem_cons.mp hx with h2 | h2
      · subst h2
        exact Or.inr ⟨b, s.hasFreeVariableDescendant_mono hb (Nat.le_max_left n N)⟩
      · rcases hN x h2 with h3 | ⟨b2, hb2⟩
        · exact Or.inl h3
        · exact Or.inr ⟨b2, s.hasFreeVariableDescendant_mono hb2 (Nat.le_max_right n N)⟩

theorem hasFreeVariableDescendant_of_acc (s : IterationSchedule) (v : Var)
    (hacc : Acc (fun c p => s.scheduleForest.IsChild p c ∧ c.isFree = false) v) :
    ∃ n b, s.hasFreeVariableDescendant n v = some b := by
  induction hacc with
  | intro v _ ih =>
    have hchildren : ∀ c ∈ s.scheduleForest.getChildren v,
        c.isFree = true ∨ ∃ n b, s.hasFreeVariableDescendant n c = some b := by
      intro c hc
      cases hf : c.isFree with
      | true => exact Or.inl rfl
      | false => exact Or.inr (ih c ⟨hc, hf⟩)
    obtain ⟨N, hN⟩ := s.hasFreeVariableDescendant_uniform _ hchildren
    obtain ⟨b, hb⟩ := freeLoop_some_of_free_or (s.hasFreeVariableDescendant N) _ hN
    exact ⟨N + 1, b, by rw [hasFreeVariableDescendant]; exact hb⟩

theorem nonfree_of_reaches_cycle (f : IterationScheduleForest)
    (huniq : ∀ a b c, f.IsChild a c → f.IsChild b c → a = b) {v y : Var}
    (hvy : Relation.ReflTransGen (fun p c => f.IsChild p c ∧ c.isFree = false) v y)
    (hcyc : Relation.TransGen (fun p c => f.IsChild p c ∧ c.isFree = false) y y) :
    v.isFree = false := by
  have hv : Relation.TransGen (fun p c => f.IsChild p c ∧ c.isFree = false) v v := by
    induction hvy using Relation.ReflTransGen.head_induction_on with
    | refl => exact hcyc
    | head hab _ ih =>
      obtain ⟨w, hbw, hwb⟩ := Relation.TransGen.tail'_iff.mp ih
      have : w = _ := huniq _ _ _ hwb.1 hab.1
      subst this
      exact Relation.TransGen.head' hab hbw
  obtain ⟨b, _, hbv⟩ := Relation.TransGen.tail'_iff.mp hv
  exact hbv.2

theorem hasFreeVariableDescendant_of_free (s : IterationSchedule)
    (hcons : s.scheduleForest.Consistent) (v : Var) (hv : v.isFree = true) :
    ∃ n b, s.hasFreeVariableDescendant n v = some b := by
  apply s.hasFreeVariableDescendant_of_acc
  refine acc_of_no_reachable_cycle _ (s.scheduleForest.children.map Prod.fst) ?_ v ?_
  · intro c p h
    have h1 := h.1
    unfold IterationScheduleForest.IsChild IterationScheduleForest.getChildren at h1
    cases hl : s.scheduleForest.children.lookup p with
    | none => simp [hl] at h1
    | some cs => exact lookup_mem_keys _ _ _ hl
  · intro y hvy hcyc
    have huniq : ∀ a b c, s.scheduleForest.IsChild a c → s.scheduleForest.IsChild b c →
        a = b := fun a b c ha hb =>
      s.scheduleForest.isParent_unique ((hcons a c).mp ha) ((hcons b c).mp hb)
    have := nonfree_of_reaches_cycle s.scheduleForest huniq hvy
      (Relation.transGen_swap.mp hcyc)
    rw [hv] at this
    cases this

/-- C11: in a schedule built by make, isLastFreeVariable(v) is
v.isFree() && !hasFreeVariableDescendant(v); it returns, and it returns true
exactly when v is free and no strict descendant of v is free. -/
theorem isLastFreeVariable_spec (tensor : TensorBase) (expr : Expr) (s : IterationSchedule)
    (h : IterationSchedule.make tensor expr = .ok s) (v : Var) :
    (∀ fuel, s.isLastFreeVariable fuel v =
      if v.isFree = true then (s.hasFreeVariableDescendant fuel v).map (fun b => !b)
      else some false) ∧
    ∃ b, Returns (fun fuel => s.isLastFreeVariable fuel v) b ∧
      (v.isFree = true → Returns (fun fuel => s.hasFreeVariableDescendant fuel v) (!b)) ∧
      (b = true ↔ v.isFree = true ∧
        ¬ ∃ d, Relation.TransGen s.scheduleForest.IsChild v d ∧ d.isFree = true) := by
  have hcons : s.scheduleForest.Consistent := by
    rw [IterationSchedule.make_forest h]
    exact IterationScheduleForest.consistent_ofPaths _
  constructor
  · intro fuel
    unfold isLastFreeVariable
    cases v.isFree with
    | true => cases s.hasFreeVariableDescendant fuel v <;> rfl
    | false => rfl
  · cases hv : v.isFree with
    | false =>
      refine ⟨false, ⟨0, fun fuel _ => by simp [isLastFreeVariable, hv]⟩, ?_, by simp⟩
      intro h0
      cases h0
    | true =>
      obtain ⟨n, d, hd⟩ := s.hasFreeVariableDescendant_of_free hcons v hv
      have hsound := s.hasFreeVariableDescendant_sound n v d hd
      have hret : Returns (fun fuel => s.hasFreeVariableDescendant fuel v) d :=
        ⟨n, fun _ hf => s.hasFreeVariableDescendant_mono hd hf⟩
      refine ⟨!d, ⟨n, fun fuel hf => ?_⟩, fun _ => by simpa using hret, ?_⟩
      · simp [isLastFreeVariable, hv, s.hasFreeVariableDescendant_mono hd hf]
      · rw [← hsound]
        cases d <;> simp

theorem isLastFreeVariable_spec_witness :
    (∀ fuel, Example.schedule.isLastFreeVariable fuel Example.j =
      if Example.j.isFree = true then
        (Example.schedule.hasFreeVariableDescendant fuel Example.j).map (fun b => !b)
      else some false) ∧
    ∃ b, Returns (fun fuel => Example.schedule.isLastFreeVariable fuel Example.j) b ∧
      (Example.j.isFree = true →
        Returns (fun fuel => Example.schedule.hasFreeVariableDescendant fuel Example.j) (!b)) ∧
      (b = true ↔ Example.j.isFree = true ∧
        ¬ ∃ d, Relation.TransGen Example.schedule.scheduleForest.IsChild Example.j d ∧
          d.isFree = true) :=
  isLastFreeVariable_spec Example.tensorA Example.matmul Example.schedule rfl Example.j

/-! ### Accumulation below a reduction variable -/

theorem hasReductionVariableAncestor_child (s : IterationSchedule) {d p : Var}
    (hp : s.scheduleForest.IsParent d p)
    (h : Returns (fun fuel => s.hasReductionVariableAncestor fuel p) (.ok true)) :
    Returns (fun fuel => s.hasReductionVariableAncestor fuel d) (.ok true) := by
  obtain ⟨n, hn⟩ := h
  refine ⟨n + 1, fun fuel hf => ?_⟩
  obtain ⟨m, rfl, hm⟩ := exists_succ_of_pos hf
  have hpm := hn m hm
  have hgp : s.scheduleForest.getParent d = .ok p := hp
  have hhas : s.scheduleForest.hasParent d = true := by
    have := (s.scheduleForest.getParent_eq_ok_iff d p).mp hp
    simp [IterationScheduleForest.hasParent, this]
  simp only [hasReductionVariableAncestor] at hpm ⊢
  cases hd : d.isReduction with
  | true => simp
  | false =>
    simp only [Bool.false_eq_true, if_false, reductionLoop, hhas, hgp, if_true]
    cases hpr : p.isReduction with
    | true => simp
    | false => simpa [hpr] using hpm

theorem hasReductionVariableAncestor_chain (s : IterationSchedule) {d v : Var}
    (hdv : Relation.ReflTransGen s.scheduleForest.IsParent d v)
    (h : Returns (fun fuel => s.hasReductionVariableAncestor fuel v) (.ok true)) :
    Returns (fun fuel => s.hasReductionVariableAncestor fuel d) (.ok true) := by
  induction hdv using Relation.ReflTransGen.head_induction_on with
  | refl => exact h
  | head hab _ ih => exact s.hasReductionVariableAncestor_child hab ih

/-- C21: in a forest whose children and parent maps agree, if
hasReductionVariableAncestor(v) returns true, then
hasReductionVariableAncestor(d) returns true for every element d of the list
getDescendants(v) returns. -/
theorem hasReductionVariableAncestor_inherited (s : IterationSchedule)
    (hcons : s.scheduleForest.Consistent) (v : Var) (l : List Var) (d : Var)
    (hv : Returns (fun fuel => s.hasReductionVariableAncestor fuel v) (.ok true))
    (hl : Returns (fun fuel => s.getDescendants fuel v) l) (hd : d ∈ l) :
    Returns (fun fuel => s.hasReductionVariableAncestor fuel d) (.ok true) := by
  obtain ⟨n, hn⟩ := hl
  have hvd : Relation.ReflTransGen s.scheduleForest.IsChild v d :=
    (s.getDescendants_mem n v l (hn n (Nat.le_refl n)) d).mp hd
  exact s.hasReductionVariableAncestor_chain
    (s.scheduleForest.isParent_of_isChild_chain hcons hvd) hv

theorem hasReductionVariableAncestor_inherited_witness :
    Returns (fun fuel => Example.chain.hasReductionVariableAncestor fuel Example.j)
      (.ok true) :=
  hasReductionVariableAncestor_inherited Example.chain
    (IterationScheduleForest.consistent_ofPaths
      [⟨Example.tensorA, [Example.k, Example.i, Example.j]⟩])
    Example.k [Example.k, Example.i, Example.j] Example.j
    ⟨0, fun _ _ => rfl⟩
    (Example.chain.getDescendants_returns (n := 3) rfl)
    (by decide)

/-! ### Emit points -/

theorem isLastFreeVariable_of_acyclic (s : IterationSchedule)
    (hac : s.scheduleForest.ChildAcyclic) (v : Var) :
    ∃ b, Returns (fun fuel => s.isLastFreeVariable fuel v) b ∧
      (b = true ↔ v.isFree = true ∧
        ¬ ∃ d, Relation.TransGen s.scheduleForest.IsChild v d ∧ d.isFree = true) := by
  obtain ⟨n, l, hl⟩ := s.getDescendants_terminates hac v
  obtain ⟨h, hh⟩ := s.hasFreeVariableDescendant_of_getDescendants n v l hl
  have hsound := s.hasFreeVariableDescendant_sound n v h hh
  cases hv : v.isFree with
  | false =>
    exact ⟨false, ⟨0, fun fuel _ => by simp [isLastFreeVariable, hv]⟩, by simp⟩
  | true =>
    refine ⟨!h, ⟨n, fun fuel hf => ?_⟩, ?_⟩
    · simp [isLastFreeVariable, hv, s.hasFreeVariableDescendant_mono hh hf]
    · rw [← hsound]
      cases h <;> simp

theorem exists_last_free_below (s : IterationSchedule)
    (hac : s.scheduleForest.ChildAcyclic) (v : Var) (hv : v.isFree = true) :
    ∃ d, Relation.ReflTransGen s.scheduleForest.IsChild v d ∧
      Returns (fun fuel => s.isLastFreeVariable fuel d) true := by
  have hwf := (s.scheduleForest.child_wellFounded hac).transGen
  induction v using hwf.induction
  rename_i v ih
  obtain ⟨b, hb, hiff⟩ := s.isLastFreeVariable_of_acyclic hac v
  cases b with
  | true => exact ⟨v, Relation.ReflTransGen.refl, hb⟩
  | false =>
    have hex : ∃ c, Relation.TransGen s.scheduleForest.IsChild v c ∧ c.isFree = true := by
      by_contra hno
      have := hiff.mpr ⟨hv, hno⟩
      cases this
    obtain ⟨c, hvc, hc⟩ := hex
    obtain ⟨d, hcd, hd⟩ := ih c (Relation.transGen_swap.mpr hvc) hc
    exact ⟨d, hvc.to_reflTransGen.trans hcd, hd⟩

/-- C22: in a forest without cycles, every free variable v has an element d of
getDescendants(v) for which isLastFreeVariable(d) returns true; and if
isLastFreeVariable(v) returns true, then every other element of
getDescendants(v), that is every element after the leading v, is different
from v and isLastFreeVariable returns false for it. -/
theorem isLastFreeVariable_beneath (s : IterationSchedule)
    (hac : s.scheduleForest.ChildAcyclic) (v : Var) :
    ∃ tail, Returns (fun fuel => s.getDescendants fuel v) (v :: tail) ∧
      (v.isFree = true →
        ∃ d ∈ v :: tail, Returns (fun fuel => s.isLastFreeVariable fuel d) true) ∧
      (Returns (fun fuel => s.isLastFreeVariable fuel v) true →
        ∀ d ∈ tail, d ≠ v ∧ Returns (fun fuel => s.isLastFreeVariable fuel d) false) := by
  obtain ⟨n, l, hl⟩ := s.getDescendants_terminates hac v
  cases n with
  | zero => simp [getDescendants] at hl
  | succ n =>
    obtain ⟨ds, _, hlds⟩ := s.getDescendants_unfold hl
    subst hlds
    refine ⟨ds.flatten, s.getDescendants_returns hl, ?_, ?_⟩
    · intro hv
      obtain ⟨d, hvd, hd⟩ := s.exists_last_free_below hac v hv
      exact ⟨d, (s.getDescendants_mem _ v _ hl d).mpr hvd, hd⟩
    · intro hlast d hd
      have hvd : Relation.TransGen s.scheduleForest.IsChild v d :=
        (s.getDescendants_tail_mem hl d).mp hd
      obtain ⟨b, hb, hiff⟩ := s.isLastFreeVariable_of_acyclic hac v
      have hbt : b = true := hb.unique hlast
      have hnone := (hiff.mp hbt).2
      refine ⟨fun hdv => hac v (hdv ▸ hvd), ?_⟩
      obtain ⟨b2, hb2, hiff2⟩ := s.isLastFreeVariable_of_acyclic hac d
      cases b2 with
      | false => exact hb2
      | true => exact absurd ⟨d, hvd, (hiff2.mp rfl).1⟩ hnone

theorem isLastFreeVariable_beneath_witness :
    ∃ tail, Returns (fun fuel => Example.schedule.getDescendants fuel Example.i)
        (Example.i :: tail) ∧
      (Example.i.isFree = true →
        ∃ d ∈ Example.i :: tail,
          Returns (fun fuel => Example.schedule.isLastFreeVariable fuel d) true) ∧
      (Returns (fun fuel => Example.schedule.isLastFreeVariable fuel Example.i) true →
        ∀ d ∈ tail, d ≠ Example.i ∧
          Returns (fun fuel => Example.schedule.isLastFreeVariable fuel d) false) :=
  isLastFreeVariable_beneath Example.schedule
    (IterationScheduleForest.childAcyclic_of_rank _ Example.rank (by decide)) Example.i

end IterationSchedule

end Taco
